import Mathlib

/-!
Verification of the knowledge-graph builder/retriever and document pipeline
(`graph_rag.py`, `document_processor.py`).

Python text is modelled as `List Char` (`Str`), so lengths and slices count
code points exactly as Python's `len`/slicing do.  External collaborators
(the HTTP layer, `networkx` serialization, `pagerank`, the language-model
service) are abstracted as explicit parameters; everything else is a direct
shallow embedding of the source.
-/

set_option maxRecDepth 10000

abbrev Str := List Char

/-- Python's default `str.strip()` whitespace set (ASCII part). -/
def isPySpace (c : Char) : Bool :=
  c = ' ' || c = '\t' || c = '\n' || c = '\r' || c = '\x0b' || c = '\x0c'

/-- Python `s.strip()`. -/
def pyStrip (s : Str) : Str :=
  ((s.dropWhile isPySpace).reverse.dropWhile isPySpace).reverse

/-- Python `s.lower()` (ASCII case folding). -/
def pyLower (s : Str) : Str := s.map Char.toLower

/-- `sep.join l` for Python: interleave `sep` between the elements of `l`. -/
def joinWith (sep : Str) : List Str → Str
  | [] => []
  | [x] => x
  | x :: y :: xs => x ++ sep ++ joinWith sep (y :: xs)

/-- First occurrence of `pat` in `l`: returns `(before, after)` with
`l = before ++ pat ++ after`. -/
def findSeq (pat : Str) : Str → Option (Str × Str)
  | [] => if pat = [] then some ([], []) else none
  | c :: rest =>
    if pat.isPrefixOf (c :: rest) then some ([], (c :: rest).drop pat.length)
    else
      match findSeq pat rest with
      | some (b, a) => some (c :: b, a)
      | none => none

/-- Python `pat in s` (substring test). -/
def containsSeq (pat l : Str) : Bool := (findSeq pat l).isSome

/-- Python `s.split(sep)` for a non-empty separator (fuel-based). -/
def pySplitAux (sep : Str) : Nat → Str → List Str
  | 0, l => [l]
  | fuel + 1, l =>
    match findSeq sep l with
    | none => [l]
    | some (b, a) => b :: pySplitAux sep fuel a

def pySplit (sep l : Str) : List Str := pySplitAux sep (l.length + 1) l

/-- Python `s.split()` (split on whitespace runs, dropping empty words). -/
def pySplitWsAux : Str → Str → List Str
  | [], cur => if cur = [] then [] else [cur.reverse]
  | c :: rest, cur =>
    if isPySpace c then
      if cur = [] then pySplitWsAux rest []
      else cur.reverse :: pySplitWsAux rest []
    else pySplitWsAux rest (c :: cur)

def pySplitWs (s : Str) : List Str := pySplitWsAux s []

/-- Python slice `l[a:b]`. -/
def pySlice (l : Str) (a b : Nat) : Str := (l.drop a).take (b - a)

/-! ## Knowledge graph (`networkx.Graph` as used by `graph_rag.py`)

A graph is a node list (insertion order) and an edge list; each edge stores
its two endpoints and its `relations` attribute, an insertion-ordered label
list.  `networkx.Graph` is undirected: edge lookup matches either
orientation. -/

abbrev Rels := List Str

structure KG where
  nodes : List Str
  edges : List (Str × Str × Rels)
deriving DecidableEq, Repr

def KG.empty : KG := ⟨[], []⟩

/-- `graph.add_node(n)`: no-op when present, else append. -/
def KG.addNode (g : KG) (n : Str) : KG :=
  if n ∈ g.nodes then g else { g with nodes := g.nodes ++ [n] }

/-- Does an edge entry connect `u` and `v` (either orientation)? -/
def edgeMatches (u v : Str) (e : Str × Str × Rels) : Bool :=
  (e.1 = u && e.2.1 = v) || (e.1 = v && e.2.1 = u)

/-- `graph.has_edge(u, v)`. -/
def KG.hasEdge (g : KG) (u v : Str) : Bool := g.edges.any (edgeMatches u v)

/-- `graph[u][v].get("relations", [])` (first matching edge entry). -/
def KG.getRels (g : KG) (u v : Str) : Rels :=
  match g.edges.find? (edgeMatches u v) with
  | some e => e.2.2
  | none => []

/-- Rewrite the first element satisfying `p` with `f`. -/
def updateFirst (p : α → Bool) (f : α → α) : List α → List α
  | [] => []
  | x :: xs => if p x then f x :: xs else x :: updateFirst p f xs

/-- `graph[u][v]["relations"] = r` (mutates the stored edge attribute). -/
def KG.updateRels (g : KG) (u v : Str) (r : Rels) : KG :=
  { g with edges := updateFirst (edgeMatches u v) (fun e => (e.1, e.2.1, r)) g.edges }

/-- `graph.add_edge(u, v, relations=r)`; adds missing endpoints like networkx. -/
def KG.addEdge (g : KG) (u v : Str) (r : Rels) : KG :=
  let g1 := (g.addNode u).addNode v
  { g1 with edges := g1.edges ++ [(u, v, r)] }

/-! ## Triple merging (`GraphBuilder.build_graph`, merge loop lines 110-125) -/

/-- A subject–predicate–object triple; a missing JSON key is the `""`
(`= []`) default produced by `t.get(..., "")`. -/
structure Triple where
  subject : Str
  predicate : Str
  object : Str
deriving DecidableEq, Repr

def normSubj (t : Triple) : Str := pyLower (pyStrip t.subject)
def normPred (t : Triple) : Str := pyLower (pyStrip t.predicate)
def normObj (t : Triple) : Str := pyLower (pyStrip t.object)

/-- `if subj and obj and pred:` (Python truthiness of the normalized fields). -/
def validTriple (t : Triple) : Prop :=
  normSubj t ≠ [] ∧ normObj t ≠ [] ∧ normPred t ≠ []

instance : DecidablePred validTriple := fun t => by unfold validTriple; infer_instance

/-- The body of the merge loop once both endpoint nodes were added
(`g1`): append the predicate to an existing edge's relation list unless
already present, else create the edge with a singleton list. -/
def mergeCore (g1 : KG) (subj obj pred : Str) : KG :=
  if g1.hasEdge subj obj then
    if pred ∈ g1.getRels subj obj then g1
    else g1.updateRels subj obj (g1.getRels subj obj ++ [pred])
  else g1.addEdge subj obj [pred]

/-- One iteration of the merge loop of `build_graph`. -/
def mergeTriple (g : KG) (t : Triple) : KG :=
  if validTriple t then
    mergeCore ((g.addNode (normSubj t)).addNode (normObj t))
      (normSubj t) (normObj t) (normPred t)
  else g

/-- The whole merge loop over a batch of triples. -/
def mergeTriples (g : KG) (ts : List Triple) : KG := ts.foldl mergeTriple g

/-- A triple is fully present in a graph: both endpoints are nodes, the edge
exists, and the predicate occurs in its relation-label list. -/
def KG.recorded (g : KG) (t : Triple) : Prop :=
  normSubj t ∈ g.nodes ∧ normObj t ∈ g.nodes ∧
  g.hasEdge (normSubj t) (normObj t) = true ∧
  normPred t ∈ g.getRels (normSubj t) (normObj t)

instance (g : KG) (t : Triple) : Decidable (g.recorded t) := by
  unfold KG.recorded; infer_instance

/-- Load step of `build_graph` (lines 97-106): absent file or a parse failure
falls back to the empty graph.  `parse` abstracts
`nx.node_link_graph(json.loads(...))`; `none` models a raised exception. -/
def loadGraph (parse : Str → Option KG) (file : Option Str) : KG :=
  match file with
  | none => KG.empty
  | some s =>
    match parse s with
    | some g => g
    | none => KG.empty

/-- Merge phase of `build_graph` under the lock: load, fold the batch in;
the returned graph is what is serialized back to the file. -/
def buildGraphMerge (parse : Str → Option KG) (file : Option Str)
    (triples : List Triple) : KG :=
  mergeTriples (loadGraph parse file) triples

/-! ## Concurrency model for `build_graph`

Each build job performs lock-free extraction steps (which read no shared
state) followed by one merge of its batch.  `FileLock` makes the whole
read-modify-write section atomic, so a merge is modelled as a single atomic
action on the shared persisted graph; extraction steps are no-ops on it.
An execution is any interleaving (`Shuffle`) of the two jobs' action lists. -/

inductive GAction where
  | extractStep : GAction
  | mergeBatch : List Triple → GAction
deriving DecidableEq

def applyGAction (g : KG) : GAction → KG
  | .extractStep => g
  | .mergeBatch ts => mergeTriples g ts

def runGActions (g : KG) (as : List GAction) : KG := as.foldl applyGAction g

/-- The action list of one `build_graph` call: `k` extraction steps, then the
lock-protected merge of its batch. -/
def buildJob (ts : List Triple) (k : Nat) : List GAction :=
  List.replicate k .extractStep ++ [.mergeBatch ts]

/-- `Shuffle xs ys zs`: `zs` is an order-preserving interleaving of `xs`
and `ys`. -/
inductive Shuffle : List α → List α → List α → Prop where
  | nil : Shuffle [] [] []
  | left {xs ys zs} (a : α) : Shuffle xs ys zs → Shuffle (a :: xs) ys (a :: zs)
  | right {xs ys zs} (b : α) : Shuffle xs ys zs → Shuffle xs (b :: ys) (b :: zs)

/-! ## Graph retriever (`GraphRetriever.get_relevant_subgraph_text`)

External services are abstracted as parameters:
* `llmEnts` is the entity list parsed from the language-model response
  (`resp.get("entities", [])`; `[]` models any extraction failure);
* `pr` abstracts `sorted(nx.pagerank(subgraph, personalization), key=scores.get,
  reverse=True)`, i.e. the score-descending node order; `none` models the
  exception caught by the bare `except`, which falls back to
  `list(subgraph.nodes)[:15]`.
Graphs written by `build_graph` always carry a `relations` attribute on every
edge, so the `.get("relations", ...)` defaults never fire at retrieval time
and `KG.getRels` reads the stored list directly. -/

/-- Adjacency: the neighbors of `n` in edge-list order (`networkx` adjacency). -/
def neighborsOf (g : KG) (n : Str) : List Str :=
  g.edges.filterMap fun e =>
    if e.1 = n then some e.2.1 else if e.2.1 = n then some e.1 else none

/-- One breadth-first level over plain nodes: returns (next frontier, visited). -/
def bfsStepNodes (g : KG) (frontier visited : List Str) : List Str × List Str :=
  frontier.foldl
    (fun acc n =>
      (neighborsOf g n).foldl
        (fun acc2 m => if m ∈ acc2.2 then acc2 else (acc2.1 ++ [m], acc2.2 ++ [m]))
        acc)
    ([], visited)

def reachWithinAux (g : KG) : Nat → List Str → List Str → List Str
  | 0, _, visited => visited
  | d + 1, frontier, visited =>
    let st := bfsStepNodes g frontier visited
    reachWithinAux g d st.1 st.2

/-- `nx.single_source_shortest_path_length(graph, n, cutoff=depth)`: the set of
nodes within `depth` hops of `n` (the keys of the distance dict). -/
def reachWithin (g : KG) (n : Str) (depth : Nat) : List Str :=
  reachWithinAux g depth [n] [n]

/-- One breadth-first level over paths (stored reversed, head = last node). -/
def bfsStepPaths (g : KG) (frontier : List (List Str)) (visited : List Str) :
    List (List Str) × List Str :=
  frontier.foldl
    (fun acc p =>
      (neighborsOf g (p.headD [])).foldl
        (fun acc2 m =>
          if m ∈ acc2.2 then acc2 else (acc2.1 ++ [m :: p], acc2.2 ++ [m]))
        acc)
    ([], visited)

def shortestPathAux (g : KG) (target : Str) :
    Nat → List (List Str) → List Str → Option (List Str)
  | 0, _, _ => none
  | fuel + 1, frontier, visited =>
    if frontier = [] then none
    else
      match frontier.find? (fun p => p.headD [] = target) with
      | some p => some p.reverse
      | none =>
        let st := bfsStepPaths g frontier visited
        shortestPathAux g target fuel st.1 st.2

/-- `nx.shortest_path(graph, source=u, target=v)` for the unweighted undirected
graph: a breadth-first shortest path; `none` models `NetworkXNoPath` (tie-break
among equal-length paths follows this adjacency order). -/
def shortestPath (g : KG) (u v : Str) : Option (List Str) :=
  shortestPathAux g v (g.nodes.length + 1) [[u]] [u]

/-- `itertools.combinations(l, 2)` in order. -/
def combinations2 : List α → List (α × α)
  | [] => []
  | x :: xs => xs.map (fun y => (x, y)) ++ combinations2 xs

/-- Add each element of `xs` not already present (Python `set.update`, with
insertion order as the canonical set order). -/
def insertAllNew (acc xs : List Str) : List Str :=
  xs.foldl (fun a x => if x ∈ a then a else a ++ [x]) acc

/-- `graph.subgraph(ns)`: induced subgraph, keeping the ambient order. -/
def KG.subgraphOn (g : KG) (ns : List Str) : KG :=
  ⟨g.nodes.filter (fun n => decide (n ∈ ns)),
   g.edges.filter (fun e => decide (e.1 ∈ ns) && decide (e.2.1 ∈ ns))⟩

/-- Path rendering of the multi-hop loop:
`A --[rel|rel]--> B --[rel]--> C ...`. -/
def renderPathLine (g : KG) (path : List Str) : Str :=
  match path with
  | [] => []
  | n0 :: rest =>
    (rest.foldl
      (fun (acc : Str × Str) n2 =>
        let relStr := joinWith "|".toList (g.getRels acc.2 n2)
        (acc.1 ++ " --[".toList ++ relStr ++ "]--> ".toList ++ n2, n2))
      (n0, n0)).1

/-- Entity resolution (lines 163-169): language-model entities, normalized by
`e.lower().strip()`; when that list is empty, fall back to every query word
longer than 3 characters, case-folded. -/
def resolvedEntities (llmEnts : List Str) (query : Str) : List Str :=
  let qe := llmEnts.map (fun e => pyStrip (pyLower e))
  if qe = [] then ((pySplitWs query).filter (fun w => 3 < w.length)).map pyLower
  else qe

/-- One iteration of the multi-hop loop (lines 183-198): try the shortest
path for the pair; keep it only when it has at most 4 nodes, in which case
its rendering is appended to the context lines and its nodes join the
working subgraph node set; `NetworkXNoPath` (`none`) skips the pair. -/
def mhStep (g : KG) (acc : List Str × List Str) (uv : Str × Str) :
    List Str × List Str :=
  match shortestPath g uv.1 uv.2 with
  | none => acc
  | some p =>
    if p.length <= 4 then (acc.1 ++ [renderPathLine g p], insertAllNew acc.2 p)
    else acc

/-- The multi-hop section: `context_lines` so far and `subgraph_nodes`
(initially `set(found_nodes)`) after the pair loop; the loop and its header
only run with more than one found node. -/
def mhPart (g : KG) (found : List Str) : List Str × List Str :=
  if 1 < found.length then
    (combinations2 found).foldl (mhStep g)
      (["--- Multi-hop Connections ---".toList], insertAllNew [] found)
  else ([], insertAllNew [] found)

/-- `subgraph_nodes` after neighborhood expansion (lines 202-204). -/
def subNodesOf (g : KG) (found : List Str) (depth : Nat) : List Str :=
  found.foldl (fun acc n => insertAllNew acc (reachWithin g n depth))
    (mhPart g found).2

/-- `subgraph = self.graph.subgraph(subgraph_nodes)` (line 207). -/
def inducedSub (g : KG) (found : List Str) (depth : Nat) : KG :=
  g.subgraphOn (subNodesOf g found depth)

/-- The personalization seeds (line 211). -/
def persOf (g : KG) (found : List Str) (depth : Nat) : List Str :=
  found.filter (fun n => decide (n ∈ (inducedSub g found depth).nodes))

/-- `top_nodes` (lines 213-219): the pagerank-sorted order when the call
succeeds, else the first 15 subgraph nodes. -/
def topNodesOf (g : KG) (found : List Str)
    (pr : KG → List Str → Option (List Str)) (depth : Nat) : List Str :=
  match pr (inducedSub g found depth) (persOf g found depth) with
  | some ranked => ranked.take 15
  | none => (inducedSub g found depth).nodes.take 15

/-- The key-concepts section (lines 222-227): header, then one line per edge
of the final induced subgraph. -/
def keyLinesOf (g : KG) (found : List Str)
    (pr : KG → List Str → Option (List Str)) (depth : Nat) : List Str :=
  ('\n' :: "--- Key Concepts & Relations ---".toList) ::
    ((inducedSub g found depth).subgraphOn (topNodesOf g found pr depth)).edges.map
      (fun e => e.1 ++ " --[".toList ++ joinWith ", ".toList e.2.2 ++
        "]--> ".toList ++ e.2.1)

/-- The full `context_lines` list for a non-empty `found_nodes`. -/
def getRelevantLines (g : KG) (found : List Str)
    (pr : KG → List Str → Option (List Str)) (depth : Nat) : List Str :=
  (mhPart g found).1 ++ keyLinesOf g found pr depth

/-- `found_nodes` (line 171). -/
def foundNodes (g : KG) (llmEnts : List Str) (query : Str) : List Str :=
  (resolvedEntities llmEnts query).filter (fun n => decide (n ∈ g.nodes))

/-- `GraphRetriever.get_relevant_subgraph_text(query, depth)`. -/
def get_relevant_subgraph_text (g : KG) (llmEnts : List Str) (query : Str)
    (pr : KG → List Str → Option (List Str)) (depth : Nat) : Str :=
  if foundNodes g llmEnts query = [] then []
  else joinWith ['\n'] (getRelevantLines g (foundNodes g llmEnts query) pr depth)

/-! ## Source extractors (`document_processor.py` lines 29-119)

The PDF/DOCX readers are external: a PDF is given as the list of its pages'
extracted texts, a DOCX as the list of its paragraph texts.  `Span` is the
`(start_char_idx, end_char_idx, page_number, paragraph_index)` tuple; `stop`
is the Python tuple's `end` field (a Lean keyword). -/

structure Span where
  start : Nat
  stop : Nat
  page : Nat
  para : Nat
deriving DecidableEq, Repr

/-- The fixed blank-line separator `"\n\n"`. -/
def sepNN : Str := ['\n', '\n']

/-- The shared per-paragraph body of the three extractors: skip a paragraph
that is blank after stripping, else append the separator (when text is
non-empty), the paragraph, and its span; the third component is
`paragraph_counter`. -/
def addPara (page : Nat) (st : Str × List Span × Nat) (para : Str) :
    Str × List Span × Nat :=
  if pyStrip para = [] then st
  else
    ((if st.1 = [] then st.1 else st.1 ++ sepNN) ++ para,
     st.2.1 ++ [⟨(if st.1 = [] then st.1 else st.1 ++ sepNN).length,
       ((if st.1 = [] then st.1 else st.1 ++ sepNN) ++ para).length,
       page, st.2.2⟩],
     st.2.2 + 1)

/-- `extract_text_from_txt` on the file's decoded text. -/
def extract_text_from_txt (text : Str) : Str × List Span :=
  let st := (pySplit sepNN text).foldl (addPara 1) ([], [], 0)
  (st.1, st.2.1)

/-- `extract_text_from_docx` on the document's paragraph texts. -/
def extract_text_from_docx (paras : List Str) : Str × List Span :=
  let st := paras.foldl (addPara 1) ([], [], 0)
  (st.1, st.2.1)

/-- `extract_text_from_pdf` on the pages' extracted texts (a page that is
blank after stripping is skipped before paragraph splitting; pages are
numbered `i + 1`). -/
def extract_text_from_pdf (pages : List Str) : Str × List Span :=
  let st := pages.enum.foldl
    (fun st ipg =>
      if pyStrip ipg.2 = [] then st
      else (pySplit sepNN ipg.2).foldl (addPara (ipg.1 + 1)) st)
    ([], [], 0)
  (st.1, st.2.1)

/-! ## Code-block detection (`extract_code_blocks` lines 136-151)

The three `re.findall` scans are embedded as explicit leftmost,
non-overlapping scanners, one per pattern. -/

def btick : Char := Char.ofNat 96
def lbrace : Char := Char.ofNat 123
def rbrace : Char := Char.ofNat 125

/-- `[a-zA-Z0-9_\-]`. -/
def isLangChar (c : Char) : Bool := c.isAlphanum || c = '_' || c = '-'

/-- Anchored match of ```` ```lang\n(.*?)``` ```` (DOTALL, lazy body):
returns the captured body and the rest after the closing fence. -/
def tryFenced (l : Str) : Option (Str × Str) :=
  match l with
  | c1 :: c2 :: c3 :: rest =>
    if c1 = btick ∧ c2 = btick ∧ c3 = btick then
      let rest2 := rest.drop (rest.takeWhile isLangChar).length
      match rest2 with
      | '\n' :: body =>
        match findSeq [btick, btick, btick] body with
        | some (cap, after) => some (cap, after)
        | none => none
      | _ => none
    else none
  | _ => none

/-- Anchored match of `` `([^`]+)` ``: the capture is the maximal non-empty
backtick-free run, which must be closed by a backtick. -/
def tryInline (l : Str) : Option (Str × Str) :=
  match l with
  | c :: rest =>
    if c = btick then
      let cap := rest.takeWhile (fun c => !(c = btick))
      if cap = [] then none
      else
        match rest.drop cap.length with
        | _ :: rest2 => some (cap, rest2)
        | [] => none
    else none
  | [] => none

/-- One unit of the indented pattern: `\n(?: {4}|\t).+` (4 spaces preferred,
then tab; `.+` is the non-empty remainder of the line). -/
def tryIndentUnit (l : Str) : Option (Str × Str) :=
  match l with
  | '\n' :: rest =>
    if [' ', ' ', ' ', ' '].isPrefixOf rest then
      let rest2 := rest.drop 4
      let line := rest2.takeWhile (fun c => !(c = '\n'))
      if line = [] then none
      else some ('\n' :: [' ', ' ', ' ', ' '] ++ line, rest2.drop line.length)
    else
      match rest with
      | '\t' :: rest2 =>
        let line := rest2.takeWhile (fun c => !(c = '\n'))
        if line = [] then none
        else some ('\n' :: '\t' :: line, rest2.drop line.length)
      | _ => none
  | _ => none

def collectIndentUnits : Nat → Str → Str × Str
  | 0, l => ([], l)
  | fuel + 1, l =>
    match tryIndentUnit l with
    | none => ([], l)
    | some (u, r) =>
      let st := collectIndentUnits fuel r
      (u ++ st.1, st.2)

/-- Anchored match of `((?:\n(?: {4}|\t).+){2,})` (greedy repetition, two or
more units). -/
def tryIndented (l : Str) : Option (Str × Str) :=
  match tryIndentUnit l with
  | none => none
  | some (u1, r1) =>
    let st := collectIndentUnits l.length r1
    if st.1 = [] then none else some (u1 ++ st.1, st.2)

/-- `re.findall`: scan left to right; on a match resume after it, otherwise
advance one character. -/
def findAllAux (m : Str → Option (Str × Str)) : Nat → Str → List Str
  | 0, _ => []
  | fuel + 1, l =>
    match m l with
    | some (cap, rest) => cap :: findAllAux m fuel rest
    | none =>
      match l with
      | [] => []
      | _ :: t => findAllAux m fuel t

def findAllMatches (m : Str → Option (Str × Str)) (l : Str) : List Str :=
  findAllAux m (l.length + 1) l

def fencedBlocks (text : Str) : List Str := findAllMatches tryFenced text

def inlineSpans (text : Str) : List Str :=
  (findAllMatches tryInline text).filter (fun s => 10 < s.length)

def codeIndicators : List Str :=
  [[lbrace], [rbrace], "=".toList, "(".toList, ")".toList, "def ".toList,
   "import ".toList, "return".toList, "var ".toList, "const ".toList,
   "function".toList]

def validIndented (text : Str) : List Str :=
  ((findAllMatches tryIndented text).filter
    (fun b => codeIndicators.any (fun ind => containsSeq ind b))).map pyStrip

/-- The `fenced + inline + valid_indented` candidate list of the final loop. -/
def candidateBlocks (text : Str) : List Str :=
  fencedBlocks text ++ inlineSpans text ++ validIndented text

/-- `extract_code_blocks`. -/
def extract_code_blocks (text : Str) : List Str :=
  (candidateBlocks text).foldl
    (fun acc b => if 20 < (pyStrip b).length then acc ++ [pyStrip b] else acc) []

/-- Content-type classification of one chunk
(`chunk_with_metadata`, line 198). -/
def segTypeOf (text : Str) : Str :=
  if extract_code_blocks text = [] then "text".toList else "code".toList

/-! ## JSON extraction protocol (`call_llm_json`, lines 17-41)

The network call is abstracted: the function below receives the response
`content` string.  `jsonLoads` models `json.loads` on the standard JSON value
grammar (integers only for numbers — every JSON payload this program
exchanges is made of objects, arrays, and strings); `none` models a raised
`JSONDecodeError`. -/

inductive Json where
  | null : Json
  | bool : Bool → Json
  | num : Int → Json
  | str : Str → Json
  | arr : List Json → Json
  | obj : List (Str × Json) → Json

def isJsonWs (c : Char) : Bool := c = ' ' || c = '\t' || c = '\n' || c = '\r'

def skipWs (l : Str) : Str := l.dropWhile isJsonWs

def hexVal (c : Char) : Option Nat :=
  if c.isDigit then some (c.toNat - 48)
  else if 'a' ≤ c ∧ c ≤ 'f' then some (c.toNat - 87)
  else if 'A' ≤ c ∧ c ≤ 'F' then some (c.toNat - 55)
  else none

/-- JSON string body after the opening quote: returns the decoded content and
the rest after the closing quote. -/
def parseJStr : Nat → Str → Option (Str × Str)
  | 0, _ => none
  | fuel + 1, l =>
    match l with
    | [] => none
    | '"' :: rest => some ([], rest)
    | '\\' :: e :: rest =>
      let cont := fun (c : Char) (r : Str) =>
        match parseJStr fuel r with
        | some sr => some (c :: sr.1, sr.2)
        | none => none
      match e with
      | '"' => cont '"' rest
      | '\\' => cont '\\' rest
      | '/' => cont '/' rest
      | 'b' => cont (Char.ofNat 8) rest
      | 'f' => cont (Char.ofNat 12) rest
      | 'n' => cont '\n' rest
      | 'r' => cont '\r' rest
      | 't' => cont '\t' rest
      | 'u' =>
        match rest with
        | h1 :: h2 :: h3 :: h4 :: rest2 =>
          match hexVal h1, hexVal h2, hexVal h3, hexVal h4 with
          | some a, some b, some c, some d =>
            cont (Char.ofNat (((a * 16 + b) * 16 + c) * 16 + d)) rest2
          | _, _, _, _ => none
        | _ => none
      | _ => none
    | c :: rest =>
      if c.toNat < 32 then none
      else
        match parseJStr fuel rest with
        | some sr => some (c :: sr.1, sr.2)
        | none => none

/-- JSON number (integer subset): `-?(0|[1-9][0-9]*)`, rejecting a fraction
or exponent tail. -/
def parseJNum (l : Str) : Option (Int × Str) :=
  let signed := l.head? = some '-'
  let l1 := if signed then l.drop 1 else l
  let digits := l1.takeWhile Char.isDigit
  if digits = [] then none
  else if digits.head? = some '0' ∧ digits.length ≠ 1 then none
  else
    let rest := l1.drop digits.length
    match rest.head? with
    | some '.' => none
    | some 'e' => none
    | some 'E' => none
    | _ =>
      let v : Int := digits.foldl (fun a c => a * 10 + (c.toNat - 48 : Nat)) 0
      some (if signed then -v else v, rest)

mutual

/-- One JSON value, leading whitespace allowed. -/
def parseVal : Nat → Str → Option (Json × Str)
  | 0, _ => none
  | fuel + 1, l0 =>
    let l := skipWs l0
    match l with
    | [] => none
    | c :: rest =>
      if c = '"' then
        match parseJStr (fuel + 1) rest with
        | some sr => some (.str sr.1, sr.2)
        | none => none
      else if c = lbrace then parseObjItems fuel (skipWs rest) true
      else if c = '[' then parseArrItems fuel (skipWs rest) true
      else if "null".toList.isPrefixOf l then some (.null, l.drop 4)
      else if "true".toList.isPrefixOf l then some (.bool true, l.drop 4)
      else if "false".toList.isPrefixOf l then some (.bool false, l.drop 5)
      else
        match parseJNum l with
        | some nr => some (.num nr.1, nr.2)
        | none => none

/-- Array items after `[` (`first: no item read yet`). -/
def parseArrItems : Nat → Str → Bool → Option (Json × Str)
  | 0, _, _ => none
  | fuel + 1, l, first =>
    match l with
    | ']' :: rest => if first then some (.arr [], rest) else none
    | _ =>
      match parseVal fuel l with
      | none => none
      | some vr =>
        match skipWs vr.2 with
        | ']' :: rest2 => some (.arr [vr.1], rest2)
        | ',' :: rest2 =>
          match parseArrItems fuel (skipWs rest2) false with
          | some tr =>
            match tr.1 with
            | .arr xs => some (.arr (vr.1 :: xs), tr.2)
            | _ => none
          | none => none
        | _ => none

/-- Object members after the opening brace (`first: no member read yet`). -/
def parseObjItems : Nat → Str → Bool → Option (Json × Str)
  | 0, _, _ => none
  | fuel + 1, l, first =>
    match l with
    | c :: rest =>
      if c = rbrace then
        if first then some (.obj [], rest) else none
      else if c = '"' then
        match parseJStr (fuel + 1) rest with
        | none => none
        | some kr =>
          match skipWs kr.2 with
          | ':' :: rest2 =>
            match parseVal fuel rest2 with
            | none => none
            | some vr =>
              match skipWs vr.2 with
              | c2 :: rest3 =>
                if c2 = rbrace then some (.obj [(kr.1, vr.1)], rest3)
                else if c2 = ',' then
                  match parseObjItems fuel (skipWs rest3) false with
                  | some tr =>
                    match tr.1 with
                    | .obj xs => some (.obj ((kr.1, vr.1) :: xs), tr.2)
                    | _ => none
                  | none => none
                else none
              | [] => none
          | _ => none
      else none
    | [] => none

end

/-- `json.loads`: one value consuming the entire input (modulo whitespace). -/
def jsonLoads (l : Str) : Option Json :=
  match parseVal (l.length + 1) l with
  | some vr => if skipWs vr.2 = [] then some vr.1 else none
  | none => none

/-- `re.search(r"\{.*\}", content, re.DOTALL)`: greedy, so the match runs
from the first opening brace to the last closing brace (when the latter
comes after the former); `none` when there is no such span. -/
def braceExtract (l : Str) : Option Str :=
  let i := (l.takeWhile (fun c => !(c = lbrace))).length
  let sufRev := (l.reverse.takeWhile (fun c => !(c = rbrace))).length
  if i < l.length ∧ sufRev < l.length ∧ i < l.length - 1 - sufRev then
    some (pySlice l i (l.length - sufRev))
  else none

/-- The JSON-extraction protocol of `call_llm_json` applied to a response
content string: regex extraction first, direct parse of the whole content
only when the regex finds no brace span; any parse failure yields `{}`
(the `except` branch). -/
def call_llm_json (content : Str) : Json :=
  match braceExtract content with
  | some sub => (jsonLoads sub).getD (.obj [])
  | none => (jsonLoads content).getD (.obj [])

/-- Modelled from the spec: the parse order the specification describes
(§4.3) — "first attempt direct parsing of the full response as a JSON
object; if that fails, search the response for the first brace-delimited
JSON object substring and parse that."  Only the order differs from
`call_llm_json`; the brace search itself is the same. -/
def specOrderExtract (content : Str) : Json :=
  match jsonLoads content with
  | some v => v
  | none =>
    match braceExtract content with
    | some sub => (jsonLoads sub).getD (.obj [])
    | none => .obj []

/-! ## Lemmas about the merge step -/

theorem addNode_edges (g : KG) (n : Str) : (g.addNode n).edges = g.edges := by
  unfold KG.addNode; split <;> rfl

theorem addNode_mem_nodes {g : KG} {m : Str} (n : Str) (h : m ∈ g.nodes) :
    m ∈ (g.addNode n).nodes := by
  unfold KG.addNode; split
  · exact h
  · exact List.mem_append_left _ h

theorem addNode_mem_self (g : KG) (n : Str) : n ∈ (g.addNode n).nodes := by
  unfold KG.addNode; split
  · assumption
  · exact List.mem_append_right _ (List.mem_singleton.mpr rfl)

theorem hasEdge_addNode (g : KG) (n u v : Str) :
    (g.addNode n).hasEdge u v = g.hasEdge u v := by
  unfold KG.hasEdge; rw [addNode_edges]

theorem getRels_addNode (g : KG) (n u v : Str) :
    (g.addNode n).getRels u v = g.getRels u v := by
  unfold KG.getRels; rw [addNode_edges]

theorem find?_updateFirst {α} (p : α → Bool) (f : α → α)
    (hf : ∀ x, p (f x) = p x) (l : List α) :
    (updateFirst p f l).find? p = (l.find? p).map f := by
  induction l with
  | nil => rfl
  | cons x xs ih =>
    unfold updateFirst
    by_cases hx : p x = true
    · rw [if_pos hx, List.find?_cons_of_pos _ ((hf x).trans hx),
        List.find?_cons_of_pos _ hx, Option.map_some']
    · rw [if_neg hx, List.find?_cons_of_neg _ hx, List.find?_cons_of_neg _ hx, ih]

theorem any_updateFirst {α} (p q : α → Bool) (f : α → α)
    (hf : ∀ x, q (f x) = q x) (l : List α) :
    (updateFirst p f l).any q = l.any q := by
  induction l with
  | nil => rfl
  | cons x xs ih =>
    unfold updateFirst
    by_cases hx : p x = true
    · rw [if_pos hx, List.any_cons, List.any_cons, hf]
    · rw [if_neg hx, List.any_cons, List.any_cons, ih]

theorem find?_q_updateFirst {α} (p q : α → Bool) (f : α → α)
    (hf : ∀ x, q (f x) = q x) (l : List α) :
    (updateFirst p f l).find? q = l.find? q ∨
      ∃ x, l.find? q = some x ∧ l.find? p = some x ∧
        (updateFirst p f l).find? q = some (f x) := by
  induction l with
  | nil => left; rfl
  | cons x xs ih =>
    unfold updateFirst
    by_cases hp : p x = true
    · by_cases hq : q x = true
      · right
        exact ⟨x, List.find?_cons_of_pos _ hq, List.find?_cons_of_pos _ hp, by
          rw [if_pos hp]; exact List.find?_cons_of_pos _ ((hf x).trans hq)⟩
      · left
        rw [if_pos hp, List.find?_cons_of_neg _ (by rw [hf]; exact hq),
          List.find?_cons_of_neg _ hq]
    · by_cases hq : q x = true
      · left
        rw [if_neg hp, List.find?_cons_of_pos _ hq, List.find?_cons_of_pos _ hq]
      · rcases ih with h | ⟨y, h1, h2, h3⟩
        · left
          rw [if_neg hp, List.find?_cons_of_neg _ hq, List.find?_cons_of_neg _ hq, h]
        · right
          exact ⟨y, by rw [List.find?_cons_of_neg _ hq]; exact h1,
            by rw [List.find?_cons_of_neg _ hp]; exact h2,
            by rw [if_neg hp, List.find?_cons_of_neg _ hq]; exact h3⟩

theorem edgeMatches_setRels (u v : Str) (r : Rels) (e : Str × Str × Rels) :
    edgeMatches u v (e.1, e.2.1, r) = edgeMatches u v e := rfl

theorem getRels_updateRels_self (g : KG) (u v : Str) (r : Rels)
    (h : g.hasEdge u v = true) : (g.updateRels u v r).getRels u v = r := by
  show (match (updateFirst (edgeMatches u v) _ g.edges).find? (edgeMatches u v) with
    | some e => e.2.2
    | none => []) = r
  rw [find?_updateFirst _ _ (fun e => edgeMatches_setRels u v r e)]
  unfold KG.hasEdge at h
  rcases List.any_eq_true.mp h with ⟨x, hx, hpx⟩
  rcases Option.isSome_iff_exists.mp (List.find?_isSome.mpr ⟨x, hx, hpx⟩) with ⟨y, hy⟩
  rw [hy]
  rfl

theorem hasEdge_updateRels (g : KG) (u v u' v' : Str) (r : Rels) :
    (g.updateRels u v r).hasEdge u' v' = g.hasEdge u' v' := by
  unfold KG.hasEdge KG.updateRels
  exact any_updateFirst _ _ _ (fun e => edgeMatches_setRels u' v' r e) _

theorem nodes_updateRels (g : KG) (u v : Str) (r : Rels) :
    (g.updateRels u v r).nodes = g.nodes := rfl

theorem getRels_updateRels_extend (g : KG) (u v : Str) (pred : Str)
    (u' v' : Str) :
    ∃ extra, (g.updateRels u v (g.getRels u v ++ [pred])).getRels u' v' =
      g.getRels u' v' ++ extra := by
  rcases find?_q_updateFirst (edgeMatches u v) (edgeMatches u' v')
      (fun e => (e.1, e.2.1, g.getRels u v ++ [pred]))
      (fun e => edgeMatches_setRels u' v' _ e) g.edges with h | ⟨x, h1, h2, h3⟩
  · refine ⟨[], ?_⟩
    show (match (updateFirst _ _ g.edges).find? (edgeMatches u' v') with
      | some e => e.2.2
      | none => []) = KG.getRels g u' v' ++ []
    rw [h, List.append_nil]
    rfl
  · refine ⟨[pred], ?_⟩
    show (match (updateFirst _ _ g.edges).find? (edgeMatches u' v') with
      | some e => e.2.2
      | none => []) = KG.getRels g u' v' ++ [pred]
    rw [h3]
    have hgr : g.getRels u' v' = x.2.2 := by
      unfold KG.getRels; rw [h1]
    have hgr2 : g.getRels u v = x.2.2 := by
      unfold KG.getRels; rw [h2]
    simp [hgr, hgr2]

theorem getRels_eq_of_find? {g : KG} {u v : Str} {x : Str × Str × Rels}
    (h : g.edges.find? (edgeMatches u v) = some x) : g.getRels u v = x.2.2 := by
  unfold KG.getRels; rw [h]

theorem getRels_eq_nil_of_find? {g : KG} {u v : Str}
    (h : g.edges.find? (edgeMatches u v) = none) : g.getRels u v = [] := by
  unfold KG.getRels; rw [h]

theorem addEdge_edges (g : KG) (u v : Str) (r : Rels) :
    (g.addEdge u v r).edges = g.edges ++ [(u, v, r)] := by
  unfold KG.addEdge
  show ((g.addNode u).addNode v).edges ++ [(u, v, r)] = g.edges ++ [(u, v, r)]
  rw [addNode_edges, addNode_edges]

theorem addEdge_mem_nodes (g : KG) (u v : Str) (r : Rels) {m : Str}
    (h : m ∈ g.nodes) : m ∈ (g.addEdge u v r).nodes := by
  unfold KG.addEdge
  exact addNode_mem_nodes _ (addNode_mem_nodes _ h)

theorem hasEdge_addEdge_mono (g : KG) (u v u' v' : Str) (r : Rels)
    (h : g.hasEdge u' v' = true) : (g.addEdge u v r).hasEdge u' v' = true := by
  unfold KG.hasEdge at h ⊢
  rw [addEdge_edges, List.any_append, h, Bool.true_or]

theorem edgeMatches_self (u v : Str) (r : Rels) :
    edgeMatches u v (u, v, r) = true := by
  unfold edgeMatches; simp

theorem hasEdge_addEdge_self (g : KG) (u v : Str) (r : Rels) :
    (g.addEdge u v r).hasEdge u v = true := by
  unfold KG.hasEdge
  rw [addEdge_edges, List.any_append]
  have : List.any [(u, v, r)] (edgeMatches u v) = true := by
    rw [List.any_cons, edgeMatches_self]; rfl
  rw [this, Bool.or_true]

theorem getRels_addEdge_new (g : KG) (u v : Str) (r : Rels)
    (h : g.hasEdge u v = false) : (g.addEdge u v r).getRels u v = r := by
  unfold KG.getRels
  rw [addEdge_edges, List.find?_append]
  have hn : g.edges.find? (edgeMatches u v) = none := by
    rw [List.find?_eq_none]
    intro x hx hpx
    unfold KG.hasEdge at h
    have := List.any_eq_true.mpr ⟨x, hx, hpx⟩
    rw [h] at this; cases this
  rw [hn, Option.none_or, List.find?_cons_of_pos _ (edgeMatches_self u v r)]

theorem getRels_addEdge_extend (g : KG) (u v u' v' : Str) (r : Rels) :
    ∃ extra, (g.addEdge u v r).getRels u' v' = g.getRels u' v' ++ extra := by
  rcases hf : g.edges.find? (edgeMatches u' v') with _ | x
  · refine ⟨(g.addEdge u v r).getRels u' v', ?_⟩
    rw [getRels_eq_nil_of_find? hf, List.nil_append]
  · refine ⟨[], ?_⟩
    have : (g.addEdge u v r).edges.find? (edgeMatches u' v') = some x := by
      rw [addEdge_edges, List.find?_append, hf]; rfl
    rw [getRels_eq_of_find? this, getRels_eq_of_find? hf, List.append_nil]

theorem mergeTriple_mem_nodes (g : KG) (t : Triple) {m : Str}
    (h : m ∈ g.nodes) : m ∈ (mergeTriple g t).nodes := by
  unfold mergeTriple mergeCore
  by_cases hv : validTriple t
  · rw [if_pos hv]
    have h1 : m ∈ ((g.addNode (normSubj t)).addNode (normObj t)).nodes :=
      addNode_mem_nodes _ (addNode_mem_nodes _ h)
    split
    · split
      · exact h1
      · rw [nodes_updateRels]; exact h1
    · exact addEdge_mem_nodes _ _ _ _ h1
  · rw [if_neg hv]; exact h

theorem mergeTriple_hasEdge_mono (g : KG) (t : Triple) (u v : Str)
    (h : g.hasEdge u v = true) : (mergeTriple g t).hasEdge u v = true := by
  unfold mergeTriple mergeCore
  by_cases hv : validTriple t
  · rw [if_pos hv]
    have h1 : ((g.addNode (normSubj t)).addNode (normObj t)).hasEdge u v = true := by
      rw [hasEdge_addNode, hasEdge_addNode]; exact h
    split
    · split
      · exact h1
      · rw [hasEdge_updateRels]; exact h1
    · exact hasEdge_addEdge_mono _ _ _ _ _ _ h1
  · rw [if_neg hv]; exact h

theorem mergeTriple_getRels_extend (g : KG) (t : Triple) (u v : Str) :
    ∃ extra, (mergeTriple g t).getRels u v = g.getRels u v ++ extra := by
  unfold mergeTriple mergeCore
  by_cases hv : validTriple t
  · rw [if_pos hv]
    have hget : ∀ u' v',
        ((g.addNode (normSubj t)).addNode (normObj t)).getRels u' v' = g.getRels u' v' :=
      fun u' v' => by rw [getRels_addNode, getRels_addNode]
    split
    · split
      · exact ⟨[], by rw [hget, List.append_nil]⟩
      · rcases getRels_updateRels_extend ((g.addNode (normSubj t)).addNode (normObj t))
          (normSubj t) (normObj t) (normPred t) u v with ⟨ex, hex⟩
        exact ⟨ex, by rw [hex, hget]⟩
    · rcases getRels_addEdge_extend ((g.addNode (normSubj t)).addNode (normObj t))
        (normSubj t) (normObj t) u v [normPred t] with ⟨ex, hex⟩
      exact ⟨ex, by rw [hex, hget]⟩
  · rw [if_neg hv]
    exact ⟨[], by rw [List.append_nil]⟩

theorem recorded_mono_mergeTriple (g : KG) (t t' : Triple)
    (h : g.recorded t') : (mergeTriple g t).recorded t' := by
  rcases h with ⟨h1, h2, h3, h4⟩
  refine ⟨mergeTriple_mem_nodes g t h1, mergeTriple_mem_nodes g t h2,
    mergeTriple_hasEdge_mono g t _ _ h3, ?_⟩
  rcases mergeTriple_getRels_extend g t (normSubj t') (normObj t') with ⟨ex, hex⟩
  rw [hex]
  exact List.mem_append_left _ h4

theorem mergeTriple_records (g : KG) (t : Triple) (hv : validTriple t) :
    (mergeTriple g t).recorded t := by
  unfold mergeTriple mergeCore
  rw [if_pos hv]
  have hs : normSubj t ∈ ((g.addNode (normSubj t)).addNode (normObj t)).nodes :=
    addNode_mem_nodes _ (addNode_mem_self _ _)
  have ho : normObj t ∈ ((g.addNode (normSubj t)).addNode (normObj t)).nodes :=
    addNode_mem_self _ _
  by_cases he : ((g.addNode (normSubj t)).addNode (normObj t)).hasEdge
      (normSubj t) (normObj t) = true
  · rw [if_pos he]
    by_cases hp : normPred t ∈
        ((g.addNode (normSubj t)).addNode (normObj t)).getRels (normSubj t) (normObj t)
    · rw [if_pos hp]
      exact ⟨hs, ho, he, hp⟩
    · rw [if_neg hp]
      refine ⟨?_, ?_, ?_, ?_⟩
      · rw [nodes_updateRels]; exact hs
      · rw [nodes_updateRels]; exact ho
      · rw [hasEdge_updateRels]; exact he
      · rw [getRels_updateRels_self _ _ _ _ he]
        exact List.mem_append_right _ (List.mem_singleton.mpr rfl)
  · rw [if_neg he]
    have hef : ((g.addNode (normSubj t)).addNode (normObj t)).hasEdge
        (normSubj t) (normObj t) = false := by simpa using he
    refine ⟨addEdge_mem_nodes _ _ _ _ hs, addEdge_mem_nodes _ _ _ _ ho,
      hasEdge_addEdge_self _ _ _ _, ?_⟩
    rw [getRels_addEdge_new _ _ _ _ hef]
    exact List.mem_singleton.mpr rfl

theorem recorded_mono_mergeTriples (g : KG) (ts : List Triple) (t' : Triple)
    (h : g.recorded t') : (mergeTriples g ts).recorded t' := by
  induction ts generalizing g with
  | nil => exact h
  | cons a as ih =>
    exact ih (mergeTriple g a) (recorded_mono_mergeTriple g a t' h)

theorem mergeTriples_records (g : KG) (ts : List Triple) (t : Triple)
    (ht : t ∈ ts) (hv : validTriple t) : (mergeTriples g ts).recorded t := by
  induction ts generalizing g with
  | nil => cases ht
  | cons a as ih =>
    rcases List.mem_cons.mp ht with rfl | hmem
    · exact recorded_mono_mergeTriples (mergeTriple g t) as t
        (mergeTriple_records g t hv)
    · exact ih (mergeTriple g a) hmem

theorem shuffle_mem_left {α} {xs ys zs : List α} {a : α}
    (h : Shuffle xs ys zs) (ha : a ∈ xs) : a ∈ zs := by
  induction h with
  | nil => cases ha
  | left b _ ih =>
    rcases List.mem_cons.mp ha with rfl | hm
    · exact List.mem_cons_self _ _
    · exact List.mem_cons_of_mem _ (ih hm)
  | right b _ ih => exact List.mem_cons_of_mem _ (ih ha)

theorem shuffle_mem_right {α} {xs ys zs : List α} {a : α}
    (h : Shuffle xs ys zs) (ha : a ∈ ys) : a ∈ zs := by
  induction h with
  | nil => cases ha
  | left b _ ih => exact List.mem_cons_of_mem _ (ih ha)
  | right b _ ih =>
    rcases List.mem_cons.mp ha with rfl | hm
    · exact List.mem_cons_self _ _
    · exact List.mem_cons_of_mem _ (ih hm)

theorem recorded_mono_run (g : KG) (as : List GAction) (t' : Triple)
    (h : g.recorded t') : (runGActions g as).recorded t' := by
  induction as generalizing g with
  | nil => exact h
  | cons b bs ih =>
    refine ih (applyGAction g b) ?_
    cases b with
    | extractStep => exact h
    | mergeBatch ts => exact recorded_mono_mergeTriples g ts t' h

theorem run_records (g : KG) (as : List GAction) (ts : List Triple) (t : Triple)
    (ha : GAction.mergeBatch ts ∈ as) (ht : t ∈ ts) (hv : validTriple t) :
    (runGActions g as).recorded t := by
  induction as generalizing g with
  | nil => cases ha
  | cons b bs ih =>
    rcases List.mem_cons.mp ha with hb | hmem
    · subst hb
      exact recorded_mono_run (mergeTriples g ts) bs t
        (mergeTriples_records g ts t ht hv)
    · exact ih (applyGAction g b) hmem

theorem addNode_eq_of_mem {g : KG} {n : Str} (h : n ∈ g.nodes) :
    g.addNode n = g := by
  unfold KG.addNode; rw [if_pos h]

theorem mergeTriple_eq_of_invalid (g : KG) (t : Triple)
    (hv : ¬ validTriple t) : mergeTriple g t = g := by
  unfold mergeTriple; rw [if_neg hv]

theorem mergeTriple_eq_of_recorded (g : KG) (t : Triple)
    (h : g.recorded t) : mergeTriple g t = g := by
  rcases h with ⟨h1, h2, h3, h4⟩
  unfold mergeTriple mergeCore
  by_cases hv : validTriple t
  · rw [if_pos hv, addNode_eq_of_mem h1, addNode_eq_of_mem h2, if_pos h3, if_pos h4]
  · rw [if_neg hv]

theorem mergeTriples_eq_of_all_recorded (g : KG) (ts : List Triple)
    (h : ∀ t ∈ ts, validTriple t → g.recorded t) : mergeTriples g ts = g := by
  induction ts with
  | nil => rfl
  | cons a as ih =>
    have hstep : mergeTriple g a = g := by
      by_cases hv : validTriple a
      · exact mergeTriple_eq_of_recorded g a (h a (List.mem_cons_self _ _) hv)
      · exact mergeTriple_eq_of_invalid g a hv
    show mergeTriples (mergeTriple g a) as = g
    rw [hstep]
    exact ih (fun t ht hv => h t (List.mem_cons_of_mem _ ht) hv)

/-- Merging the same batch a second time changes nothing at all. -/
theorem mergeTriples_twice (ts : List Triple) :
    mergeTriples (mergeTriples KG.empty ts) ts = mergeTriples KG.empty ts :=
  mergeTriples_eq_of_all_recorded _ ts
    (fun t ht hv => mergeTriples_records KG.empty ts t ht hv)

/-! ## Append-only structure of the merge (for C4) -/

/-- `new` extends `old` by appending labels that were not yet present (and
are pairwise distinct): relation sets only grow, keeping insertion order. -/
def RelsExtend (old new : Rels) : Prop :=
  ∃ extra, new = old ++ extra ∧ extra.Nodup ∧ ∀ x ∈ extra, x ∉ old

/-- `e'` is `e` with the same endpoints and an extended relation list. -/
def EdgeExtends (e e' : Str × Str × Rels) : Prop :=
  e'.1 = e.1 ∧ e'.2.1 = e.2.1 ∧ RelsExtend e.2.2 e'.2.2

/-- Every edge entry of `old` survives at its position in `new` (with its
relation list extended); `new` may carry extra edges after them. -/
def EdgesExtend : List (Str × Str × Rels) → List (Str × Str × Rels) → Prop
  | [], _ => True
  | _ :: _, [] => False
  | e :: old, e' :: new => EdgeExtends e e' ∧ EdgesExtend old new

theorem relsExtend_refl (r : Rels) : RelsExtend r r :=
  ⟨[], by simp, List.nodup_nil, by simp⟩

theorem relsExtend_trans {a b c : Rels} (h1 : RelsExtend a b)
    (h2 : RelsExtend b c) : RelsExtend a c := by
  rcases h1 with ⟨e1, rfl, n1, f1⟩
  rcases h2 with ⟨e2, rfl, n2, f2⟩
  refine ⟨e1 ++ e2, by rw [List.append_assoc], ?_, ?_⟩
  · rw [List.nodup_append]
    refine ⟨n1, n2, fun x hx1 hx2 => ?_⟩
    exact f2 x hx2 (List.mem_append_right _ hx1)
  · intro x hx
    rcases List.mem_append.mp hx with h | h
    · exact f1 x h
    · intro hxa
      exact f2 x h (List.mem_append_left _ hxa)

theorem edgeExtends_refl (e : Str × Str × Rels) : EdgeExtends e e :=
  ⟨rfl, rfl, relsExtend_refl _⟩

theorem edgeExtends_trans {e1 e2 e3 : Str × Str × Rels}
    (h1 : EdgeExtends e1 e2) (h2 : EdgeExtends e2 e3) : EdgeExtends e1 e3 :=
  ⟨h2.1.trans h1.1, h2.2.1.trans h1.2.1, relsExtend_trans h1.2.2 h2.2.2⟩

theorem edgesExtend_refl (l : List (Str × Str × Rels)) : EdgesExtend l l := by
  induction l with
  | nil => trivial
  | cons e l ih => exact ⟨edgeExtends_refl e, ih⟩

theorem edgesExtend_append (l rest : List (Str × Str × Rels)) :
    EdgesExtend l (l ++ rest) := by
  induction l with
  | nil => trivial
  | cons e l ih => exact ⟨edgeExtends_refl e, ih⟩

theorem edgesExtend_trans : ∀ {l1 l2 l3 : List (Str × Str × Rels)},
    EdgesExtend l1 l2 → EdgesExtend l2 l3 → EdgesExtend l1 l3
  | [], _, _, _, _ => trivial
  | _ :: _, [], _, h12, _ => absurd h12 not_false
  | _ :: _, _ :: _, [], _, h23 => absurd h23 not_false
  | _ :: _, _ :: _, _ :: _, h12, h23 =>
    ⟨edgeExtends_trans h12.1 h23.1, edgesExtend_trans h12.2 h23.2⟩

theorem edgesExtend_updateFirst (p : Str × Str × Rels → Bool) (pred : Str)
    (x0 : Str × Str × Rels) :
    ∀ (l : List (Str × Str × Rels)), l.find? p = some x0 → pred ∉ x0.2.2 →
      EdgesExtend l (updateFirst p (fun e => (e.1, e.2.1, x0.2.2 ++ [pred])) l)
  | [], hf, _ => by cases hf
  | x :: xs, hf, hp => by
    unfold updateFirst
    by_cases hx : p x = true
    · rw [List.find?_cons_of_pos _ hx] at hf
      injection hf with hf
      subst hf
      rw [if_pos hx]
      refine ⟨⟨rfl, rfl, [pred], rfl, List.nodup_singleton _, ?_⟩, edgesExtend_refl xs⟩
      intro y hy
      rw [List.mem_singleton] at hy
      subst hy
      exact hp
    · rw [List.find?_cons_of_neg _ hx] at hf
      rw [if_neg hx]
      exact ⟨edgeExtends_refl x, edgesExtend_updateFirst p pred x0 xs hf hp⟩

theorem mergeTriple_edges_extend (g : KG) (t : Triple) :
    EdgesExtend g.edges (mergeTriple g t).edges := by
  unfold mergeTriple mergeCore
  by_cases hv : validTriple t
  · rw [if_pos hv]
    have hE : ((g.addNode (normSubj t)).addNode (normObj t)).edges = g.edges := by
      rw [addNode_edges, addNode_edges]
    split
    · rename_i he
      split
      · rw [hE]; exact edgesExtend_refl _
      · rename_i hp
        unfold KG.hasEdge at he
        rcases Option.isSome_iff_exists.mp (List.find?_isSome.mpr
          (List.any_eq_true.mp he)) with ⟨x, hx⟩
        have hrels : ((g.addNode (normSubj t)).addNode (normObj t)).getRels
            (normSubj t) (normObj t) = x.2.2 := getRels_eq_of_find? hx
        show EdgesExtend g.edges (updateFirst _ _ _)
        rw [hrels, hE]
        have hx' : g.edges.find? (edgeMatches (normSubj t) (normObj t)) = some x := by
          rw [← hE]; exact hx
        have hp' : normPred t ∉ x.2.2 := by rw [← hrels]; exact hp
        exact edgesExtend_updateFirst _ _ x g.edges hx' hp'
    · rw [addEdge_edges, hE]
      exact edgesExtend_append _ _
  · rw [if_neg hv]
    exact edgesExtend_refl _

theorem mergeTriples_edges_extend (g : KG) (ts : List Triple) :
    EdgesExtend g.edges (mergeTriples g ts).edges := by
  induction ts generalizing g with
  | nil => exact edgesExtend_refl _
  | cons a as ih =>
    exact edgesExtend_trans (mergeTriple_edges_extend g a) (ih (mergeTriple g a))

theorem mergeTriples_mem_nodes (g : KG) (ts : List Triple) {m : Str}
    (h : m ∈ g.nodes) : m ∈ (mergeTriples g ts).nodes := by
  induction ts generalizing g with
  | nil => exact h
  | cons a as ih => exact ih (mergeTriple g a) (mergeTriple_mem_nodes g a h)

theorem mergeTriple_step_characterization (g : KG) (t : Triple)
    (hv : validTriple t) :
    (g.hasEdge (normSubj t) (normObj t) = true →
      (normPred t ∈ g.getRels (normSubj t) (normObj t) →
        (mergeTriple g t).getRels (normSubj t) (normObj t) =
          g.getRels (normSubj t) (normObj t)) ∧
      (normPred t ∉ g.getRels (normSubj t) (normObj t) →
        (mergeTriple g t).getRels (normSubj t) (normObj t) =
          g.getRels (normSubj t) (normObj t) ++ [normPred t])) ∧
    (g.hasEdge (normSubj t) (normObj t) = false →
      (mergeTriple g t).hasEdge (normSubj t) (normObj t) = true ∧
      (mergeTriple g t).getRels (normSubj t) (normObj t) = [normPred t]) := by
  unfold mergeTriple mergeCore
  rw [if_pos hv]
  have hE : ((g.addNode (normSubj t)).addNode (normObj t)).hasEdge
      (normSubj t) (normObj t) = g.hasEdge (normSubj t) (normObj t) := by
    rw [hasEdge_addNode, hasEdge_addNode]
  have hG : ((g.addNode (normSubj t)).addNode (normObj t)).getRels
      (normSubj t) (normObj t) = g.getRels (normSubj t) (normObj t) := by
    rw [getRels_addNode, getRels_addNode]
  constructor
  · intro he
    have he1 : ((g.addNode (normSubj t)).addNode (normObj t)).hasEdge
        (normSubj t) (normObj t) = true := by rw [hE]; exact he
    rw [if_pos he1]
    constructor
    · intro hp
      have hp1 : normPred t ∈ ((g.addNode (normSubj t)).addNode (normObj t)).getRels
          (normSubj t) (normObj t) := by rw [hG]; exact hp
      rw [if_pos hp1, hG]
    · intro hp
      have hp1 : normPred t ∉ ((g.addNode (normSubj t)).addNode (normObj t)).getRels
          (normSubj t) (normObj t) := by rw [hG]; exact hp
      rw [if_neg hp1, getRels_updateRels_self _ _ _ _ he1, hG]
  · intro he
    have he1 : ¬ ((g.addNode (normSubj t)).addNode (normObj t)).hasEdge
        (normSubj t) (normObj t) = true := by rw [hE, he]; exact Bool.false_ne_true
    rw [if_neg he1]
    refine ⟨hasEdge_addEdge_self _ _ _ _, ?_⟩
    exact getRels_addEdge_new _ _ _ _ (by rw [hE]; exact he)

/-! ## Claim theorems C2-C5 -/

/-- C2: for any initial persisted graph and two `build_graph` calls with
batches `T1`, `T2` against the same graph file, whatever the interleaving of
their (shared-state-free) extraction steps, the lock serializes the two
read-modify-write merge sections, and the final persisted graph records every
triple of both batches whose three normalized fields are non-empty: both
endpoints are nodes, the edge exists, and the predicate is in its relation
set — no such triple is lost. -/
theorem c2_concurrent_merges_lose_no_triple (G : KG) (T1 T2 : List Triple)
    (k1 k2 : Nat) (zs : List GAction)
    (hs : Shuffle (buildJob T1 k1) (buildJob T2 k2) zs)
    (t : Triple) (ht : t ∈ T1 ++ T2) (hv : validTriple t) :
    (runGActions G zs).recorded t := by
  have hm1 : GAction.mergeBatch T1 ∈ buildJob T1 k1 :=
    List.mem_append_right _ (List.mem_singleton.mpr rfl)
  have hm2 : GAction.mergeBatch T2 ∈ buildJob T2 k2 :=
    List.mem_append_right _ (List.mem_singleton.mpr rfl)
  rcases List.mem_append.mp ht with h1 | h2
  · exact run_records G zs T1 t (shuffle_mem_left hs hm1) h1 hv
  · exact run_records G zs T2 t (shuffle_mem_right hs hm2) h2 hv

def cTripleA : Triple := ⟨"Alice".toList, "founded".toList, "Acme".toList⟩
def cTripleB : Triple := ⟨"Acme".toList, "makes".toList, "widgets".toList⟩

theorem c2_concurrent_merges_lose_no_triple_witness :
    Shuffle (buildJob [cTripleA] 1) (buildJob [cTripleB] 0)
      [GAction.extractStep, GAction.mergeBatch [cTripleB],
       GAction.mergeBatch [cTripleA]] ∧
    cTripleA ∈ [cTripleA] ++ [cTripleB] ∧ validTriple cTripleA ∧
    (runGActions KG.empty
      [GAction.extractStep, GAction.mergeBatch [cTripleB],
       GAction.mergeBatch [cTripleA]]).recorded cTripleA := by
  have hs : Shuffle (buildJob [cTripleA] 1) (buildJob [cTripleB] 0)
      [GAction.extractStep, GAction.mergeBatch [cTripleB],
       GAction.mergeBatch [cTripleA]] := by
    show Shuffle [GAction.extractStep, GAction.mergeBatch [cTripleA]]
      [GAction.mergeBatch [cTripleB]] _
    exact Shuffle.left _ (Shuffle.right _ (Shuffle.left _ Shuffle.nil))
  exact ⟨hs, by decide, by decide,
    c2_concurrent_merges_lose_no_triple KG.empty [cTripleA] [cTripleB] 1 0 _ hs
      cTripleA (by decide) (by decide)⟩

/-- C3: merging a batch `ts` twice into an initially empty graph yields the
same node set, the same edges, and the same per-edge relation-label sets as
merging it once (in fact the second merge is a no-op). -/
theorem c3_double_merge_idempotent (ts : List Triple) :
    (∀ n, n ∈ (mergeTriples (mergeTriples KG.empty ts) ts).nodes ↔
        n ∈ (mergeTriples KG.empty ts).nodes) ∧
    (∀ u v, (mergeTriples (mergeTriples KG.empty ts) ts).hasEdge u v =
        (mergeTriples KG.empty ts).hasEdge u v) ∧
    (∀ u v r, r ∈ (mergeTriples (mergeTriples KG.empty ts) ts).getRels u v ↔
        r ∈ (mergeTriples KG.empty ts).getRels u v) := by
  rw [mergeTriples_twice]
  exact ⟨fun _ => Iff.rfl, fun _ _ => rfl, fun _ _ _ => Iff.rfl⟩

/-- C4: the merge fold is append-only — every node of the loaded graph `g`
survives; every edge entry of `g` survives at its position with the same
endpoints and its relation list extended only by labels not already present
(no duplicates added); and each loop iteration on a triple with all three
normalized fields non-empty appends the predicate to the endpoint pair's
relation list only when absent, or creates the edge with a singleton list
when the pair had no edge. -/
theorem c4_merge_append_only (g : KG) (ts : List Triple) :
    (∀ n, n ∈ g.nodes → n ∈ (mergeTriples g ts).nodes) ∧
    EdgesExtend g.edges (mergeTriples g ts).edges ∧
    (∀ (g' : KG) (t : Triple), validTriple t →
      (g'.hasEdge (normSubj t) (normObj t) = true →
        (normPred t ∈ g'.getRels (normSubj t) (normObj t) →
          (mergeTriple g' t).getRels (normSubj t) (normObj t) =
            g'.getRels (normSubj t) (normObj t)) ∧
        (normPred t ∉ g'.getRels (normSubj t) (normObj t) →
          (mergeTriple g' t).getRels (normSubj t) (normObj t) =
            g'.getRels (normSubj t) (normObj t) ++ [normPred t])) ∧
      (g'.hasEdge (normSubj t) (normObj t) = false →
        (mergeTriple g' t).hasEdge (normSubj t) (normObj t) = true ∧
        (mergeTriple g' t).getRels (normSubj t) (normObj t) = [normPred t])) :=
  ⟨fun _ h => mergeTriples_mem_nodes g ts h,
   mergeTriples_edges_extend g ts,
   fun g' t hv => mergeTriple_step_characterization g' t hv⟩

theorem c4_merge_append_only_witness :
    "alice".toList ∈ (KG.addNode KG.empty "alice".toList).nodes ∧
    validTriple cTripleA ∧
    "alice".toList ∈
      (mergeTriples (KG.addNode KG.empty "alice".toList) [cTripleB]).nodes := by
  refine ⟨by decide, by decide, ?_⟩
  exact (c4_merge_append_only (KG.addNode KG.empty "alice".toList) [cTripleB]).1
    "alice".toList (by decide)

/-- C5: at merge time an absent graph file, or a file whose contents fail to
parse, both make `build_graph` start from the empty graph; the merge then
produces (and writes back) exactly the new batch folded into the empty
graph. -/
theorem c5_load_fallback_empty (parse : Str → Option KG) (file : Option Str)
    (ts : List Triple)
    (h : file = none ∨ ∃ s, file = some s ∧ parse s = none) :
    buildGraphMerge parse file ts = mergeTriples KG.empty ts := by
  rcases h with rfl | ⟨s, rfl, hp⟩
  · rfl
  · unfold buildGraphMerge
    simp [loadGraph, hp]

theorem c5_load_fallback_empty_witness :
    ((some "corrupt".toList : Option Str) = none ∨
      ∃ s, (some "corrupt".toList : Option Str) = some s ∧
        (fun (_ : Str) => (none : Option KG)) s = none) ∧
    buildGraphMerge (fun _ => none) (some "corrupt".toList) [cTripleA] =
      mergeTriples KG.empty [cTripleA] :=
  ⟨Or.inr ⟨"corrupt".toList, rfl, rfl⟩,
   c5_load_fallback_empty (fun _ => none) (some "corrupt".toList) [cTripleA]
     (Or.inr ⟨"corrupt".toList, rfl, rfl⟩)⟩

/-! ## Lemmas about the retriever -/

/-- What one pair contributes to the multi-hop lines: the rendered shortest
path when one exists and has at most 4 nodes, nothing otherwise. -/
def pairRender (g : KG) (uv : Str × Str) : Option Str :=
  match shortestPath g uv.1 uv.2 with
  | none => none
  | some p => if p.length <= 4 then some (renderPathLine g p) else none

theorem mhStep_fst (g : KG) (acc : List Str × List Str) (uv : Str × Str) :
    (mhStep g acc uv).1 = acc.1 ++ (pairRender g uv).toList := by
  unfold mhStep pairRender
  rcases h : shortestPath g uv.1 uv.2 with _ | p
  · simp only [h, Option.toList_none, List.append_nil]
  · simp only [h]
    by_cases hl : p.length <= 4
    · rw [if_pos hl, if_pos hl]; rfl
    · rw [if_neg hl, if_neg hl]; simp

theorem mhFold_fst (g : KG) (pairs : List (Str × Str)) :
    ∀ init : List Str × List Str,
      (pairs.foldl (mhStep g) init).1 = init.1 ++ pairs.filterMap (pairRender g) := by
  induction pairs with
  | nil => intro init; simp
  | cons uv rest ih =>
    intro init
    rw [List.foldl_cons, ih, List.filterMap_cons, mhStep_fst]
    rcases pairRender g uv with _ | line
    · simp
    · simp

theorem mhPart_fst (g : KG) (found : List Str) :
    (mhPart g found).1 =
      if 1 < found.length then
        "--- Multi-hop Connections ---".toList ::
          (combinations2 found).filterMap (pairRender g)
      else [] := by
  unfold mhPart
  by_cases h : 1 < found.length
  · rw [if_pos h, if_pos h, mhFold_fst]; rfl
  · rw [if_neg h, if_neg h]

theorem getRelevantLines_decomp (g : KG) (found : List Str)
    (pr : KG → List Str → Option (List Str)) (depth : Nat) :
    ∃ rest, getRelevantLines g found pr depth =
      (if 1 < found.length then
        "--- Multi-hop Connections ---".toList ::
          (combinations2 found).filterMap (pairRender g)
       else []) ++ (('\n' :: "--- Key Concepts & Relations ---".toList) :: rest) := by
  refine ⟨((inducedSub g found depth).subgraphOn
      (topNodesOf g found pr depth)).edges.map
    (fun e => e.1 ++ " --[".toList ++ joinWith ", ".toList e.2.2 ++
      "]--> ".toList ++ e.2.1), ?_⟩
  rw [← mhPart_fst]
  rfl

theorem joinWith_mem_split (sep : Str) (l : List Str) (a : Str) (h : a ∈ l) :
    ∃ p q, joinWith sep l = p ++ a ++ q ∧ (q = [] ∨ ∃ q', q = sep ++ q') := by
  induction l with
  | nil => cases h
  | cons x xs ih =>
    rcases List.mem_cons.mp h with rfl | hmem
    · cases xs with
      | nil => exact ⟨[], [], by simp [joinWith], Or.inl rfl⟩
      | cons y ys =>
        exact ⟨[], sep ++ joinWith sep (y :: ys), by simp [joinWith],
          Or.inr ⟨joinWith sep (y :: ys), rfl⟩⟩
    · have hxs : xs ≠ [] := List.ne_nil_of_mem hmem
      rcases ih hmem with ⟨p, q, heq, hq⟩
      cases xs with
      | nil => cases hxs rfl
      | cons y ys =>
        refine ⟨x ++ sep ++ p, q, ?_, hq⟩
        show x ++ sep ++ joinWith sep (y :: ys) = x ++ sep ++ p ++ a ++ q
        rw [heq]
        simp [List.append_assoc]

theorem joinWith_mem_length_le (sep : Str) (l : List Str) (a : Str)
    (h : a ∈ l) : a.length ≤ (joinWith sep l).length := by
  rcases joinWith_mem_split sep l a h with ⟨p, q, heq, _⟩
  rw [heq]
  simp only [List.length_append]
  omega

theorem keyHeader_mem_lines (g : KG) (found : List Str)
    (pr : KG → List Str → Option (List Str)) (depth : Nat) :
    ('\n' :: "--- Key Concepts & Relations ---".toList) ∈
      getRelevantLines g found pr depth := by
  rcases getRelevantLines_decomp g found pr depth with ⟨rest, heq⟩
  rw [heq]
  exact List.mem_append_right _ (List.mem_cons_self _ _)

theorem mem_combinations2_length {α} {uv : α × α} :
    ∀ {l : List α}, uv ∈ combinations2 l → 1 < l.length
  | [], h => by cases h
  | [x], h => by
    unfold combinations2 combinations2 at h
    cases h
  | _ :: _ :: _, _ => by
    simp only [List.length_cons]
    omega

/-- The §8 example graph: `a–b` labelled `leads_to`, `b–c` labelled
`causes`. -/
def exampleGraphABC : KG :=
  ⟨["a".toList, "b".toList, "c".toList],
   [("a".toList, "b".toList, ["leads_to".toList]),
    ("b".toList, "c".toList, ["causes".toList])]⟩

/-! ## Claim theorems C6, C7, C10 -/

/-- C6: on the example graph (edges `a–b` "leads_to", `b–c` "causes") a
retrieval whose resolved entities are `a` and `c` renders the multi-hop line
`a --[leads_to]--> b --[causes]--> c` among its context lines and inside its
output string, whatever the pagerank outcome; in general the multi-hop
section is exactly the header followed by, per unordered pair of found
nodes, the rendered shortest path when it exists with at most 4 nodes
(pairs with no path or a longer one contribute nothing), and every such
accepted path's rendering appears among the context lines. -/
theorem c6_multihop_path_rendering :
    (∀ (pr : KG → List Str → Option (List Str)) (query : Str) (depth : Nat),
      "a --[leads_to]--> b --[causes]--> c".toList ∈
        getRelevantLines exampleGraphABC ["a".toList, "c".toList] pr depth ∧
      ∃ p q, get_relevant_subgraph_text exampleGraphABC
          ["a".toList, "c".toList] query pr depth =
        p ++ "a --[leads_to]--> b --[causes]--> c".toList ++ q) ∧
    (∀ (g : KG) (found : List Str) (pr : KG → List Str → Option (List Str))
        (depth : Nat),
      ∃ rest, getRelevantLines g found pr depth =
        (if 1 < found.length then
          "--- Multi-hop Connections ---".toList ::
            (combinations2 found).filterMap (pairRender g)
         else []) ++ rest) ∧
    (∀ (g : KG) (found : List Str) (pr : KG → List Str → Option (List Str))
        (depth : Nat) (uv : Str × Str) (pth : List Str),
      uv ∈ combinations2 found → shortestPath g uv.1 uv.2 = some pth →
      pth.length ≤ 4 →
      renderPathLine g pth ∈ getRelevantLines g found pr depth) := by
  have hpartiii : ∀ (g : KG) (found : List Str)
      (pr : KG → List Str → Option (List Str)) (depth : Nat) (uv : Str × Str)
      (pth : List Str), uv ∈ combinations2 found →
      shortestPath g uv.1 uv.2 = some pth → pth.length ≤ 4 →
      renderPathLine g pth ∈ getRelevantLines g found pr depth := by
    intro g found pr depth uv pth huv hsp hlen
    rcases getRelevantLines_decomp g found pr depth with ⟨rest, heq⟩
    rw [heq, if_pos (mem_combinations2_length huv)]
    refine List.mem_append_left _ (List.mem_cons_of_mem _ ?_)
    refine List.mem_filterMap.mpr ⟨uv, huv, ?_⟩
    unfold pairRender
    rw [hsp]
    exact if_pos hlen
  refine ⟨?_, ?_, hpartiii⟩
  · intro pr query depth
    have hfound : foundNodes exampleGraphABC ["a".toList, "c".toList] query =
        ["a".toList, "c".toList] := rfl
    have hline : "a --[leads_to]--> b --[causes]--> c".toList ∈
        getRelevantLines exampleGraphABC ["a".toList, "c".toList] pr depth := by
      have : "a --[leads_to]--> b --[causes]--> c".toList =
          renderPathLine exampleGraphABC ["a".toList, "b".toList, "c".toList] := by
        decide
      rw [this]
      exact hpartiii exampleGraphABC _ pr depth ("a".toList, "c".toList)
        ["a".toList, "b".toList, "c".toList] (by decide) (by decide) (by decide)
    refine ⟨hline, ?_⟩
    rcases joinWith_mem_split ['\n'] _ _ hline with ⟨p, q, heq, _⟩
    refine ⟨p, q, ?_⟩
    unfold get_relevant_subgraph_text
    rw [hfound]
    rw [if_neg (by decide : ¬ (["a".toList, "c".toList] = ([] : List Str)))]
    exact heq
  · intro g found pr depth
    rcases getRelevantLines_decomp g found pr depth with ⟨rest, heq⟩
    exact ⟨('\n' :: "--- Key Concepts & Relations ---".toList) :: rest, heq⟩

theorem c6_multihop_path_rendering_witness :
    ("a".toList, "c".toList) ∈ combinations2 ["a".toList, "c".toList] ∧
    shortestPath exampleGraphABC "a".toList "c".toList =
      some ["a".toList, "b".toList, "c".toList] ∧
    ["a".toList, "b".toList, "c".toList].length ≤ 4 ∧
    renderPathLine exampleGraphABC ["a".toList, "b".toList, "c".toList] ∈
      getRelevantLines exampleGraphABC ["a".toList, "c".toList]
        (fun _ _ => none) 1 := by
  refine ⟨by decide, by decide, by decide, ?_⟩
  exact c6_multihop_path_rendering.2.2 exampleGraphABC ["a".toList, "c".toList]
    (fun _ _ => none) 1 ("a".toList, "c".toList)
    ["a".toList, "b".toList, "c".toList] (by decide) (by decide) (by decide)

/-- C7: when every resolved candidate entity (the normalized language-model
list, or on fallback every query word longer than 3 characters, case-folded)
is absent from the loaded graph's node set, retrieval returns the empty
string. -/
theorem c7_absent_entities_empty_output (g : KG) (llmEnts : List Str)
    (query : Str) (pr : KG → List Str → Option (List Str)) (depth : Nat)
    (h : ∀ e ∈ resolvedEntities llmEnts query, e ∉ g.nodes) :
    get_relevant_subgraph_text g llmEnts query pr depth = [] := by
  unfold get_relevant_subgraph_text
  rw [if_pos]
  unfold foundNodes
  exact List.filter_eq_nil_iff.mpr (fun a ha => by simpa using h a ha)

theorem c7_absent_entities_empty_output_witness :
    (∀ e ∈ resolvedEntities ["zebra".toList] "what causes a".toList,
      e ∉ exampleGraphABC.nodes) ∧
    get_relevant_subgraph_text exampleGraphABC ["zebra".toList]
      "what causes a".toList (fun _ _ => none) 1 = [] :=
  ⟨by decide,
   c7_absent_entities_empty_output exampleGraphABC ["zebra".toList]
     "what causes a".toList (fun _ _ => none) 1 (by decide)⟩

/-- C10 (implicit): the retrieval output is empty exactly when no resolved
entity is a node of the loaded graph; whenever at least one is found, the
output is non-empty and contains the literal header line
`--- Key Concepts & Relations ---` (preceded by a newline and followed by a
newline or the end of the output), regardless of the pagerank outcome —
in particular even when the final top-ranked subgraph has no edges. -/
theorem c10_output_empty_iff_and_header (g : KG) (llmEnts : List Str)
    (query : Str) (pr : KG → List Str → Option (List Str)) (depth : Nat) :
    (get_relevant_subgraph_text g llmEnts query pr depth = [] ↔
      foundNodes g llmEnts query = []) ∧
    (foundNodes g llmEnts query ≠ [] →
      ∃ p q, get_relevant_subgraph_text g llmEnts query pr depth =
          p ++ ('\n' :: "--- Key Concepts & Relations ---".toList) ++ q ∧
        (q = [] ∨ ∃ q', q = '\n' :: q')) := by
  have hmain : foundNodes g llmEnts query ≠ [] →
      ∃ p q, get_relevant_subgraph_text g llmEnts query pr depth =
          p ++ ('\n' :: "--- Key Concepts & Relations ---".toList) ++ q ∧
        (q = [] ∨ ∃ q', q = '\n' :: q') := by
    intro hne
    unfold get_relevant_subgraph_text
    rw [if_neg hne]
    rcases joinWith_mem_split ['\n'] _ _
      (keyHeader_mem_lines g (foundNodes g llmEnts query) pr depth)
      with ⟨p, q, heq, hq⟩
    exact ⟨p, q, heq, hq⟩
  refine ⟨⟨?_, ?_⟩, hmain⟩
  · intro hout
    by_contra hne
    rcases hmain hne with ⟨p, q, heq, _⟩
    rw [hout] at heq
    have : ([] : Str).length = (p ++ ('\n' :: "--- Key Concepts & Relations ---".toList) ++ q).length := by
      rw [heq]
    simp only [List.length_nil, List.length_append, List.length_cons] at this
    omega
  · intro hf
    unfold get_relevant_subgraph_text
    rw [if_pos hf]

theorem c10_output_empty_iff_and_header_witness :
    foundNodes exampleGraphABC ["b".toList] "x".toList ≠ [] ∧
    (∃ p q, get_relevant_subgraph_text exampleGraphABC ["b".toList] "x".toList
        (fun _ _ => none) 1 =
        p ++ ('\n' :: "--- Key Concepts & Relations ---".toList) ++ q ∧
      (q = [] ∨ ∃ q', q = '\n' :: q')) :=
  ⟨by decide,
   (c10_output_empty_iff_and_header exampleGraphABC ["b".toList] "x".toList
     (fun _ _ => none) 1).2 (by decide)⟩

/-! ## Lemmas about the source extractors (C8) -/

theorem pyStrip_nil : pyStrip [] = [] := rfl

theorem ne_nil_of_pyStrip_ne_nil {p : Str} (h : pyStrip p ≠ []) : p ≠ [] := by
  intro hp
  subst hp
  exact h pyStrip_nil

theorem joinWith_concat (sep : Str) (x : Str) :
    ∀ l : List Str, joinWith sep (l ++ [x]) =
      if l = [] then x else joinWith sep l ++ sep ++ x
  | [] => by simp [joinWith]
  | [a] => by simp [joinWith]
  | a :: b :: bs => by
    have ih := joinWith_concat sep x (b :: bs)
    show a ++ sep ++ joinWith sep ((b :: bs) ++ [x]) = _
    rw [ih, if_neg (by simp), if_neg (by simp)]
    show a ++ sep ++ (joinWith sep (b :: bs) ++ sep ++ x) =
      a ++ sep ++ joinWith sep (b :: bs) ++ sep ++ x
    simp [List.append_assoc]

theorem joinWith_ne_nil (sep : Str) :
    ∀ l : List Str, l ≠ [] → (∀ p ∈ l, p ≠ []) → joinWith sep l ≠ []
  | [], h, _ => absurd rfl h
  | [a], _, hp => by
    simpa [joinWith] using hp a (List.mem_singleton.mpr rfl)
  | a :: b :: bs, _, hp => by
    show a ++ sep ++ joinWith sep (b :: bs) ≠ []
    intro hcon
    have ha : a ≠ [] := hp a (List.mem_cons_self _ _)
    rcases List.append_eq_nil.mp hcon with ⟨h1, _⟩
    rcases List.append_eq_nil.mp h1 with ⟨h2, _⟩
    exact ha h2

theorem pySlice_append (l r : Str) (a b : Nat) (hb : b ≤ l.length) :
    pySlice (l ++ r) a b = pySlice l a b := by
  unfold pySlice
  rw [List.drop_append_eq_append_drop, List.take_append_eq_append_take]
  have h1 : (b - a) - (l.drop a).length = 0 := by
    rw [List.length_drop]
    omega
  rw [h1, List.take_zero, List.append_nil]

theorem pySlice_self_suffix (l q : Str) :
    pySlice (l ++ q) l.length (l.length + q.length) = q := by
  unfold pySlice
  rw [List.drop_left]
  have : l.length + q.length - l.length = q.length := by omega
  rw [this, List.take_length]

/-- The invariant the extractor fold maintains: the full text is the
blank-line join of the kept paragraphs, every kept paragraph is non-blank,
every span is a valid slice range, the spans slice out exactly the kept
paragraphs in order, and span starts strictly increase. -/
def SpanInv (full : Str) (spans : List Span) (kept : List Str) : Prop :=
  full = joinWith sepNN kept ∧
  (∀ p ∈ kept, pyStrip p ≠ []) ∧
  (∀ s ∈ spans, s.start < s.stop ∧ s.stop ≤ full.length) ∧
  List.Forall₂ (fun s p => pySlice full s.start s.stop = p) spans kept ∧
  spans.Pairwise (fun s1 s2 => s1.start < s2.start)

theorem forall₂_append_single {R : Span → Str → Prop} {spans kept} {s : Span}
    {p : Str} (h : List.Forall₂ R spans kept) (hs : R s p) :
    List.Forall₂ R (spans ++ [s]) (kept ++ [p]) := by
  induction h with
  | nil => exact List.Forall₂.cons hs List.Forall₂.nil
  | cons h1 _ ih => exact List.Forall₂.cons h1 ih

theorem forall₂_slice_extend (full ext : Str) {spans : List Span}
    {kept : List Str} (hb : ∀ s ∈ spans, s.stop ≤ full.length)
    (h : List.Forall₂ (fun s p => pySlice full s.start s.stop = p) spans kept) :
    List.Forall₂ (fun s p => pySlice (full ++ ext) s.start s.stop = p)
      spans kept := by
  induction h with
  | nil => exact List.Forall₂.nil
  | @cons s p spans' kept' h1 _ ih =>
    refine List.Forall₂.cons ?_ (ih (fun s hs => hb s (List.mem_cons_of_mem _ hs)))
    rw [pySlice_append _ _ _ _ (hb s (List.mem_cons_self _ _))]
    exact h1

/-- `addPara` with the page packed into the element (one fold over
page-tagged paragraphs). -/
def addParaP (st : Str × List Span × Nat) (pp : Nat × Str) :
    Str × List Span × Nat :=
  addPara pp.1 st pp.2

/-- The kept (non-blank) paragraphs of a page-tagged paragraph list. -/
def keptOf (pairs : List (Nat × Str)) : List Str :=
  pairs.filterMap (fun pp => if pyStrip pp.2 = [] then none else some pp.2)

theorem spanInv_init : SpanInv ([] : Str) ([] : List Span) [] :=
  ⟨rfl, fun _ h => absurd h (List.not_mem_nil _),
   fun _ h => absurd h (List.not_mem_nil _), List.Forall₂.nil, List.Pairwise.nil⟩

theorem keptOf_cons (pp : Nat × Str) (rest : List (Nat × Str)) :
    keptOf (pp :: rest) =
      (if pyStrip pp.2 = [] then [] else [pp.2]) ++ keptOf rest := by
  unfold keptOf
  rw [List.filterMap_cons]
  by_cases hq : pyStrip pp.2 = []
  · rw [if_pos hq, if_pos hq]; rfl
  · rw [if_neg hq, if_neg hq]; rfl

theorem addParaP_inv (st : Str × List Span × Nat) (kept : List Str)
    (pp : Nat × Str) (h : SpanInv st.1 st.2.1 kept) :
    SpanInv (addParaP st pp).1 (addParaP st pp).2.1
      (kept ++ if pyStrip pp.2 = [] then [] else [pp.2]) := by
  rcases h with ⟨hjoin, hkept, hbounds, hslices, hpair⟩
  unfold addParaP addPara
  by_cases hq : pyStrip pp.2 = []
  · rw [if_pos hq, if_pos hq, List.append_nil]
    exact ⟨hjoin, hkept, hbounds, hslices, hpair⟩
  · rw [if_neg hq, if_neg hq]
    obtain ⟨ext, hext⟩ : ∃ ext,
        (if st.1 = [] then st.1 else st.1 ++ sepNN) ++ pp.2 = st.1 ++ ext := by
      by_cases hn : st.1 = []
      · exact ⟨pp.2, by rw [if_pos hn]⟩
      · exact ⟨sepNN ++ pp.2, by rw [if_neg hn, List.append_assoc]⟩
    have hlen1 : st.1.length ≤
        (if st.1 = [] then st.1 else st.1 ++ sepNN).length := by
      split
      · exact Nat.le_refl _
      · rw [List.length_append]; omega
    have hkept' : ∀ p ∈ kept ++ [pp.2], pyStrip p ≠ [] := by
      intro p hp
      rcases List.mem_append.mp hp with h1 | h1
      · exact hkept p h1
      · rw [List.mem_singleton.mp h1]; exact hq
    have hjoin2 : (if st.1 = [] then st.1 else st.1 ++ sepNN) ++ pp.2 =
        joinWith sepNN (kept ++ [pp.2]) := by
      rw [joinWith_concat]
      by_cases hk : kept = []
      · have h0 : st.1 = [] := by rw [hjoin, hk]; rfl
        rw [if_pos hk, if_pos h0, h0]
        rfl
      · have hne : st.1 ≠ [] := by
          rw [hjoin]
          exact joinWith_ne_nil sepNN kept hk
            (fun p hp => ne_nil_of_pyStrip_ne_nil (hkept p hp))
        rw [if_neg hk, if_neg hne, hjoin]
    have hq2 : 0 < pp.2.length :=
      List.length_pos.mpr (ne_nil_of_pyStrip_ne_nil hq)
    show SpanInv ((if st.1 = [] then st.1 else st.1 ++ sepNN) ++ pp.2)
      (st.2.1 ++ [⟨(if st.1 = [] then st.1 else st.1 ++ sepNN).length,
        ((if st.1 = [] then st.1 else st.1 ++ sepNN) ++ pp.2).length,
        pp.1, st.2.2⟩])
      (kept ++ [pp.2])
    refine ⟨hjoin2, hkept', ?_, ?_, ?_⟩
    · intro s hs
      rcases List.mem_append.mp hs with h1 | h1
      · rcases hbounds s h1 with ⟨hb1, hb2⟩
        refine ⟨hb1, ?_⟩
        rw [List.length_append]
        omega
      · rw [List.mem_singleton.mp h1]
        refine ⟨?_, Nat.le_refl _⟩
        show (if st.1 = [] then st.1 else st.1 ++ sepNN).length <
          ((if st.1 = [] then st.1 else st.1 ++ sepNN) ++ pp.2).length
        rw [List.length_append]
        omega
    · refine forall₂_append_single ?_ ?_
      · rw [hext]
        exact forall₂_slice_extend _ _ (fun s hs => (hbounds s hs).2) hslices
      · rw [List.length_append]
        exact pySlice_self_suffix _ _
    · rw [List.pairwise_append]
      refine ⟨hpair, List.pairwise_singleton _ _, ?_⟩
      intro s hs s' hs'
      rw [List.mem_singleton.mp hs']
      show s.start < (if st.1 = [] then st.1 else st.1 ++ sepNN).length
      rcases hbounds s hs with ⟨hb1, hb2⟩
      omega

theorem foldl_addParaP_inv (pairs : List (Nat × Str)) :
    ∀ (st : Str × List Span × Nat) (kept : List Str),
      SpanInv st.1 st.2.1 kept →
      SpanInv ((pairs.foldl addParaP st).1) ((pairs.foldl addParaP st).2.1)
        (kept ++ keptOf pairs) := by
  induction pairs with
  | nil =>
    intro st kept h
    rw [List.foldl_nil]
    show SpanInv st.1 st.2.1 (kept ++ [])
    rw [List.append_nil]
    exact h
  | cons pp rest ih =>
    intro st kept h
    rw [List.foldl_cons, keptOf_cons, ← List.append_assoc]
    exact ih (addParaP st pp) _ (addParaP_inv st kept pp h)

theorem foldl_addPara_eq (page : Nat) (l : List Str) (st : Str × List Span × Nat) :
    l.foldl (addPara page) st = (l.map (fun p => (page, p))).foldl addParaP st := by
  rw [List.foldl_map]
  rfl

theorem keptOf_append (a b : List (Nat × Str)) :
    keptOf (a ++ b) = keptOf a ++ keptOf b := by
  unfold keptOf
  exact List.filterMap_append _ _ _

theorem keptOf_map (page : Nat) (l : List Str) :
    keptOf (l.map (fun p => (page, p))) =
      l.filter (fun p => decide (pyStrip p ≠ [])) := by
  induction l with
  | nil => rfl
  | cons p rest ih =>
    rw [List.map_cons, keptOf_cons, List.filter_cons]
    by_cases hq : pyStrip p = []
    · rw [if_pos hq, ih]
      have hd : decide (pyStrip p ≠ []) = false := by simp [hq]
      rw [hd]
      simp
    · rw [if_neg hq, ih]
      have hd : decide (pyStrip p ≠ []) = true := by simp [hq]
      rw [hd]
      simp

theorem foldl_flatMap {α β σ : Type} (f : σ → β → σ) (h : α → List β) :
    ∀ (l : List α) (init : σ),
      (l.flatMap h).foldl f init = l.foldl (fun st x => (h x).foldl f st) init
  | [], _ => rfl
  | x :: xs, init => by
    rw [List.flatMap_cons, List.foldl_append, List.foldl_cons]
    exact foldl_flatMap f h xs _

/-- The page-tagged paragraph list a PDF page contributes: nothing for a
blank page, else its blank-line-split paragraphs tagged with the 1-based
page number. -/
def pagePairs (ipg : Nat × Str) : List (Nat × Str) :=
  if pyStrip ipg.2 = [] then []
  else (pySplit sepNN ipg.2).map (fun p => (ipg.1 + 1, p))

/-- The kept (non-blank) paragraphs one PDF page contributes. -/
def pageKept (pg : Str) : List Str :=
  if pyStrip pg = [] then []
  else (pySplit sepNN pg).filter (fun p => decide (pyStrip p ≠ []))

theorem keptOf_pagePairs (ipg : Nat × Str) :
    keptOf (pagePairs ipg) = pageKept ipg.2 := by
  unfold pagePairs pageKept
  by_cases hq : pyStrip ipg.2 = []
  · rw [if_pos hq, if_pos hq]
    rfl
  · rw [if_neg hq, if_neg hq, keptOf_map]

theorem flatMap_enumFrom {β : Type} (F : Str → List β) :
    ∀ (l : List Str) (n : Nat),
      (l.enumFrom n).flatMap (fun ipg => F ipg.2) = l.flatMap F
  | [], _ => rfl
  | x :: xs, n => by
    rw [List.enumFrom_cons, List.flatMap_cons, List.flatMap_cons,
      flatMap_enumFrom F xs (n + 1)]

theorem keptOf_flatMap (h : Nat × Str → List (Nat × Str)) :
    ∀ l : List (Nat × Str),
      keptOf (l.flatMap h) = l.flatMap (fun x => keptOf (h x))
  | [] => rfl
  | x :: xs => by
    rw [List.flatMap_cons, List.flatMap_cons, keptOf_append,
      keptOf_flatMap h xs]

/-! ## Claim theorem C8 -/

/-- C8: for each of the three extractors (plain text, DOCX paragraphs, PDF
pages), the returned source map satisfies `SpanInv` against the kept
(non-blank) paragraphs: every span is a valid slice range of the returned
full text slicing out exactly its paragraph, spans come in strictly
increasing start order, and joining the kept paragraphs with the blank-line
separator reconstructs the full text exactly. -/
theorem c8_spans_reconstruct_full_text :
    (∀ text : Str,
      SpanInv (extract_text_from_txt text).1 (extract_text_from_txt text).2
        ((pySplit sepNN text).filter (fun p => decide (pyStrip p ≠ [])))) ∧
    (∀ paras : List Str,
      SpanInv (extract_text_from_docx paras).1 (extract_text_from_docx paras).2
        (paras.filter (fun p => decide (pyStrip p ≠ [])))) ∧
    (∀ pages : List Str,
      SpanInv (extract_text_from_pdf pages).1 (extract_text_from_pdf pages).2
        (pages.flatMap pageKept)) := by
  refine ⟨?_, ?_, ?_⟩
  · intro text
    have h := foldl_addParaP_inv
      ((pySplit sepNN text).map (fun p => (1, p))) ([], [], 0) [] spanInv_init
    rw [keptOf_map, List.nil_append] at h
    unfold extract_text_from_txt
    rw [foldl_addPara_eq]
    exact h
  · intro paras
    have h := foldl_addParaP_inv
      (paras.map (fun p => (1, p))) ([], [], 0) [] spanInv_init
    rw [keptOf_map, List.nil_append] at h
    unfold extract_text_from_docx
    rw [foldl_addPara_eq]
    exact h
  · intro pages
    have hB : (fun (st : Str × List Span × Nat) (ipg : Nat × Str) =>
        if pyStrip ipg.2 = [] then st
        else (pySplit sepNN ipg.2).foldl (addPara (ipg.1 + 1)) st) =
        (fun st ipg => (pagePairs ipg).foldl addParaP st) := by
      funext st ipg
      unfold pagePairs
      by_cases hq : pyStrip ipg.2 = []
      · rw [if_pos hq, if_pos hq]
        rfl
      · rw [if_neg hq, if_neg hq, foldl_addPara_eq]
    have h := foldl_addParaP_inv
      (pages.enum.flatMap pagePairs) ([], [], 0) [] spanInv_init
    rw [List.nil_append] at h
    have hkept : keptOf (pages.enum.flatMap pagePairs) =
        pages.flatMap pageKept := by
      rw [keptOf_flatMap]
      have h2 : pages.enum.flatMap (fun ipg => keptOf (pagePairs ipg)) =
          pages.enum.flatMap (fun ipg => pageKept ipg.2) := by
        congr 1
        funext ipg
        exact keptOf_pagePairs ipg
      rw [h2]
      exact flatMap_enumFrom pageKept pages 0
    rw [hkept] at h
    unfold extract_text_from_pdf
    rw [hB, ← foldl_flatMap]
    exact h

/-! ## Claim C9: code-block threshold -/

theorem extract_foldl_filterMap (l : List Str) :
    ∀ init : List Str,
      l.foldl (fun acc b => if 20 < (pyStrip b).length then acc ++ [pyStrip b]
        else acc) init =
      init ++ l.filterMap (fun b => if 20 < (pyStrip b).length
        then some (pyStrip b) else none) := by
  induction l with
  | nil => intro init; simp
  | cons b rest ih =>
    intro init
    rw [List.foldl_cons, List.filterMap_cons]
    by_cases h20 : 20 < (pyStrip b).length
    · rw [if_pos h20, if_pos h20, ih (init ++ [pyStrip b])]
      simp [List.append_assoc]
    · rw [if_neg h20, if_neg h20, ih init]

theorem extract_eq_filterMap (t : Str) :
    extract_code_blocks t = (candidateBlocks t).filterMap
      (fun b => if 20 < (pyStrip b).length then some (pyStrip b) else none) := by
  unfold extract_code_blocks
  rw [extract_foldl_filterMap]
  rfl

/-- C9 (amended): a candidate block matching one of the three heuristics is
discarded as noise exactly when its trimmed length is at most 20 characters
(the code uses a strict `> 20` test); a matched block is kept (its trimmed
form appears in the output) iff its trimmed length exceeds 20, and a chunk
is labeled "code" precisely when at least one block is kept. -/
theorem c9_code_block_threshold (t : Str) :
    (∀ b ∈ candidateBlocks t,
      (pyStrip b ∈ extract_code_blocks t ↔ 20 < (pyStrip b).length)) ∧
    (segTypeOf t = "code".toList ↔ extract_code_blocks t ≠ []) := by
  constructor
  · intro b hb
    rw [extract_eq_filterMap]
    constructor
    · intro hmem
      rcases List.mem_filterMap.mp hmem with ⟨b', _, hfb⟩
      by_cases h' : 20 < (pyStrip b').length
      · rw [if_pos h'] at hfb
        injection hfb with hfb
        rw [← hfb]
        exact h'
      · rw [if_neg h'] at hfb
        cases hfb
    · intro h20
      exact List.mem_filterMap.mpr ⟨b, hb, by rw [if_pos h20]⟩
  · unfold segTypeOf
    by_cases he : extract_code_blocks t = []
    · rw [if_pos he]
      exact ⟨fun h => absurd h (by decide), fun h => absurd he h⟩
    · rw [if_neg he]
      exact ⟨fun _ => he, fun _ => rfl⟩

/-- An inline span of exactly 20 non-blank characters: it matches the
inline heuristic (length > 10) yet is discarded by the `> 20` keep test. -/
def c9Text : Str := "see `aaaaaaaaaaaaaaaaaaaa` here".toList
def c9Block : Str := "aaaaaaaaaaaaaaaaaaaa".toList

/-- C9 counterexample: `c9Block` is a matched candidate block whose trimmed
length is exactly 20, yet it is discarded (the extractor returns no block)
and the chunk is labeled "text" — refuting "every matching block of trimmed
length 20 or more is kept" and "discarded exactly when shorter than 20". -/
theorem c9_code_block_threshold_counterexample :
    c9Block ∈ candidateBlocks c9Text ∧
    (pyStrip c9Block).length = 20 ∧
    pyStrip c9Block ∉ extract_code_blocks c9Text ∧
    extract_code_blocks c9Text = [] ∧
    segTypeOf c9Text = "text".toList := by decide

theorem c9_code_block_threshold_witness :
    "abcdefghijklmnopqrstuvwxyz".toList ∈
      candidateBlocks "run `abcdefghijklmnopqrstuvwxyz` now".toList ∧
    (pyStrip "abcdefghijklmnopqrstuvwxyz".toList ∈
        extract_code_blocks "run `abcdefghijklmnopqrstuvwxyz` now".toList ↔
      20 < (pyStrip "abcdefghijklmnopqrstuvwxyz".toList).length) :=
  ⟨by decide,
   (c9_code_block_threshold "run `abcdefghijklmnopqrstuvwxyz` now".toList).1
     "abcdefghijklmnopqrstuvwxyz".toList (by decide)⟩

/-! ## Claim C1: JSON-extraction order -/

theorem take_takeWhile_len {α} (p : α → Bool) :
    ∀ l : List α, l.take (l.takeWhile p).length = l.takeWhile p
  | [] => rfl
  | x :: xs => by
    rw [List.takeWhile_cons]
    by_cases hx : p x = true
    · rw [if_pos hx, List.length_cons, List.take_succ_cons,
        take_takeWhile_len p xs]
    · rw [if_neg hx]
      rfl

theorem drop_lenTakeWhile {α} (p : α → Bool) (l : List α) :
    l.drop (l.takeWhile p).length = l.dropWhile p := by
  have h := List.drop_left (l.takeWhile p) (l.dropWhile p)
  rw [List.takeWhile_append_dropWhile] at h
  exact h

theorem len_takeWhile_add {α} (p : α → Bool) (l : List α) :
    (l.takeWhile p).length + (l.dropWhile p).length = l.length := by
  have h := congrArg List.length (List.takeWhile_append_dropWhile p l)
  rw [List.length_append] at h
  exact h

theorem head?_dropWhile_pred {α} (p : α → Bool) :
    ∀ (l : List α) (x : α), (l.dropWhile p).head? = some x → p x = false
  | [], x, h => by cases h
  | c :: cs, x, h => by
    rw [List.dropWhile_cons] at h
    by_cases hc : p c = true
    · rw [if_pos hc] at h
      exact head?_dropWhile_pred p cs x h
    · rw [if_neg hc] at h
      injection h with h
      subst h
      simpa using hc

theorem braceExtract_spec (c s : Str) (h : braceExtract c = some s) :
    ∃ p q, c = p ++ s ++ q ∧ (∀ x ∈ p, x ≠ lbrace) ∧ (∀ x ∈ q, x ≠ rbrace) ∧
      s.head? = some lbrace ∧ s.getLast? = some rbrace := by
  simp only [braceExtract] at h
  split at h
  case isFalse => cases h
  case isTrue hcond =>
    obtain ⟨hi, hsuf, hij⟩ := hcond
    injection h with hs
    refine ⟨c.take (c.takeWhile (fun ch => !(ch = lbrace))).length,
      c.drop (c.length - (c.reverse.takeWhile (fun ch => !(ch = rbrace))).length),
      ?_, ?_, ?_, ?_, ?_⟩
    · rw [← hs]
      unfold pySlice
      rw [List.append_assoc]
      nth_rewrite 1 [← List.take_append_drop
        (c.takeWhile (fun ch => !(ch = lbrace))).length c]
      congr 1
      nth_rewrite 1 [← List.take_append_drop
        ((c.length - (c.reverse.takeWhile (fun ch => !(ch = rbrace))).length) -
          (c.takeWhile (fun ch => !(ch = lbrace))).length)
        (c.drop (c.takeWhile (fun ch => !(ch = lbrace))).length)]
      congr 1
      rw [List.drop_drop]
      congr 1
      omega
    · intro x hx
      rw [take_takeWhile_len] at hx
      have := List.mem_takeWhile_imp hx
      simpa using this
    · intro x hx
      rw [← List.mem_reverse, List.reverse_drop] at hx
      have harith : c.length - (c.length -
          (c.reverse.takeWhile (fun ch => !(ch = rbrace))).length) =
          (c.reverse.takeWhile (fun ch => !(ch = rbrace))).length := by
        have := len_takeWhile_add (fun ch => !(ch = rbrace)) c.reverse
        rw [List.length_reverse] at this
        omega
      rw [harith, take_takeWhile_len] at hx
      have := List.mem_takeWhile_imp hx
      simpa using this
    · rw [← hs]
      unfold pySlice
      rw [List.head?_take,
        if_neg (by omega :
          ¬ (c.length - (c.reverse.takeWhile (fun ch => !(ch = rbrace))).length -
            (c.takeWhile (fun ch => !(ch = lbrace))).length = 0)),
        drop_lenTakeWhile]
      have hlen : 0 < (c.dropWhile (fun ch => !(ch = lbrace))).length := by
        have := len_takeWhile_add (fun ch => !(ch = lbrace)) c
        omega
      rcases hD : c.dropWhile (fun ch => !(ch = lbrace)) with _ | ⟨hd, tl⟩
      · rw [hD] at hlen; cases hlen
      · have hpred := head?_dropWhile_pred (fun ch => !(ch = lbrace)) c hd
          (by rw [hD]; rfl)
        have : hd = lbrace := by simpa using hpred
        rw [this]
        rfl
    · rw [List.getLast?_eq_head?_reverse, ← hs]
      unfold pySlice
      rw [List.reverse_take, List.reverse_drop, List.drop_take]
      have hM : (c.drop (c.takeWhile (fun ch => !(ch = lbrace))).length).length -
          (c.length - (c.reverse.takeWhile (fun ch => !(ch = rbrace))).length -
            (c.takeWhile (fun ch => !(ch = lbrace))).length) =
          (c.reverse.takeWhile (fun ch => !(ch = rbrace))).length := by
        rw [List.length_drop]
        have := len_takeWhile_add (fun ch => !(ch = rbrace)) c.reverse
        rw [List.length_reverse] at this
        omega
      rw [hM, drop_lenTakeWhile, List.head?_take]
      rw [if_neg (by omega :
        ¬ (c.length - (c.takeWhile (fun ch => !(ch = lbrace))).length -
          (c.reverse.takeWhile (fun ch => !(ch = rbrace))).length = 0))]
      have hlen : 0 < (c.reverse.dropWhile (fun ch => !(ch = rbrace))).length := by
        have := len_takeWhile_add (fun ch => !(ch = rbrace)) c.reverse
        rw [List.length_reverse] at this
        omega
      rcases hD : c.reverse.dropWhile (fun ch => !(ch = rbrace)) with _ | ⟨hd, tl⟩
      · rw [hD] at hlen; cases hlen
      · have hpred := head?_dropWhile_pred (fun ch => !(ch = rbrace)) c.reverse hd
          (by rw [hD]; rfl)
        have : hd = rbrace := by simpa using hpred
        rw [this]
        rfl

theorem braceExtract_none_no_pair (resp : Str) (h : braceExtract resp = none) :
    ∀ i j : Nat, i < j → resp[i]? = some lbrace → resp[j]? = some rbrace → False := by
  intro i j hij hgi hgj
  simp only [braceExtract] at h
  split at h
  case isTrue => cases h
  case isFalse hcond =>
    apply hcond
    obtain ⟨hjlen, hjget⟩ := List.getElem?_eq_some.mp hgj
    obtain ⟨hilen, higet⟩ := List.getElem?_eq_some.mp hgi
    have hfirst : (resp.takeWhile (fun ch => !(ch = lbrace))).length ≤ i := by
      by_contra hlt
      push_neg at hlt
      have hmem : lbrace ∈ resp.takeWhile (fun ch => !(ch = lbrace)) := by
        rw [← take_takeWhile_len]
        have : (resp.take (resp.takeWhile (fun ch => !(ch = lbrace))).length)[i]? =
            some lbrace := by
          rw [List.getElem?_take, if_pos hlt]
          exact hgi
        obtain ⟨h1, h2⟩ := List.getElem?_eq_some.mp this
        have hm := List.getElem_mem h1
        rw [h2] at hm
        exact hm
      simpa using List.mem_takeWhile_imp hmem
    have hlast : j ≤ resp.length - 1 -
        (resp.reverse.takeWhile (fun ch => !(ch = rbrace))).length := by
      by_contra hlt
      push_neg at hlt
      have hrevidx : resp.length - 1 - j <
          (resp.reverse.takeWhile (fun ch => !(ch = rbrace))).length := by
        have hsle : (resp.reverse.takeWhile (fun ch => !(ch = rbrace))).length ≤
            resp.length := by
          have := len_takeWhile_add (fun ch => !(ch = rbrace)) resp.reverse
          rw [List.length_reverse] at this
          omega
        omega
      have hrevget : resp.reverse[resp.length - 1 - j]? = some rbrace := by
        rw [List.getElem?_reverse (by omega)]
        have : resp.length - 1 - (resp.length - 1 - j) = j := by omega
        rw [this]
        exact hgj
      have hmem : rbrace ∈ resp.reverse.takeWhile (fun ch => !(ch = rbrace)) := by
        rw [← take_takeWhile_len]
        have : (resp.reverse.take
            (resp.reverse.takeWhile (fun ch => !(ch = rbrace))).length)[resp.length - 1 - j]? =
            some rbrace := by
          rw [List.getElem?_take, if_pos hrevidx]
          exact hrevget
        obtain ⟨h1, h2⟩ := List.getElem?_eq_some.mp this
        have hm := List.getElem_mem h1
        rw [h2] at hm
        exact hm
      simpa using List.mem_takeWhile_imp hmem
    refine ⟨by omega, by omega, by omega⟩

/-- C1 (amended): the JSON-extraction protocol applies the regex search
FIRST: whenever the response contains a brace-delimited span (from its first
opening brace to its last closing brace), that span — and not the full
response — is parsed; direct parsing of the full response happens only when
no such span exists (no opening brace is followed by a closing brace); any
parse failure yields the empty object. -/
theorem c1_regex_search_first (resp : Str) :
    (∀ s, braceExtract resp = some s →
      call_llm_json resp = (jsonLoads s).getD (Json.obj []) ∧
      ∃ p q, resp = p ++ s ++ q ∧ (∀ x ∈ p, x ≠ lbrace) ∧ (∀ x ∈ q, x ≠ rbrace) ∧
        s.head? = some lbrace ∧ s.getLast? = some rbrace) ∧
    (braceExtract resp = none →
      call_llm_json resp = (jsonLoads resp).getD (Json.obj []) ∧
      ∀ i j : Nat, i < j → resp[i]? = some lbrace → resp[j]? = some rbrace → False) := by
  constructor
  · intro s hs
    refine ⟨?_, braceExtract_spec resp s hs⟩
    unfold call_llm_json
    rw [hs]
  · intro hn
    refine ⟨?_, braceExtract_none_no_pair resp hn⟩
    unfold call_llm_json
    rw [hn]

/-- The response string `[{"a": 1}]` (a JSON array wrapping an object). -/
def c1Content : Str := "[\x7b\"a\": 1\x7d]".toList

/-- C1 counterexample: direct parsing of the full response succeeds (it is
the JSON array `[{"a": 1}]`), so under the claimed order the protocol would
return that array; the code's extraction instead returns the inner object
`{"a": 1}` because the regex search runs first — and the spec-order model
`specOrderExtract` indeed returns the array, differing from the code. -/
theorem c1_counterexample_order :
    jsonLoads c1Content =
      some (Json.arr [Json.obj [("a".toList, Json.num 1)]]) ∧
    specOrderExtract c1Content =
      Json.arr [Json.obj [("a".toList, Json.num 1)]] ∧
    call_llm_json c1Content = Json.obj [("a".toList, Json.num 1)] ∧
    call_llm_json c1Content ≠
      Json.arr [Json.obj [("a".toList, Json.num 1)]] := by
  refine ⟨rfl, rfl, rfl, ?_⟩
  intro hcontra
  have hobj : Json.obj [("a".toList, Json.num 1)] =
      Json.arr [Json.obj [("a".toList, Json.num 1)]] :=
    (rfl : call_llm_json c1Content = Json.obj [("a".toList, Json.num 1)]).symm.trans
      hcontra
  exact Json.noConfusion hobj

theorem c1_regex_search_first_witness :
    braceExtract "x \x7b\"k\": 2\x7d y".toList = some "\x7b\"k\": 2\x7d".toList ∧
    call_llm_json "x \x7b\"k\": 2\x7d y".toList =
      (jsonLoads "\x7b\"k\": 2\x7d".toList).getD (Json.obj []) :=
  ⟨rfl,
   ((c1_regex_search_first "x \x7b\"k\": 2\x7d y".toList).1
     "\x7b\"k\": 2\x7d".toList rfl).1⟩
